import Mathlib

/-!
Shallow embedding of the konfig configuration-population library
(package konfig, file konfig.go of github.com/moehandi/konfig).

Conventions used throughout:

* Character classification and case mapping model the ASCII/Latin-1
  fragment of Go's unicode package (the fragment exercised by the
  library); characters above U+00FF are classified as "other" and map
  to themselves.  All functions are total and executable.
* Go's reflection-driven record walk is modelled by an explicit tree
  of typed values (`CVal`) and tagged fields (`CField`).  Struct tags
  are strings, with "" meaning an absent tag, exactly as returned by
  reflect.StructTag.Get.  Floating-point fields are outside the model
  (real-number parsing does not translate); no claim touches them.
* The filesystem is a function from path to a read outcome, and the
  three format decoders (JSON/TOML/YAML) are modelled at their
  documented boundary: a successfully decoded document is a list of
  (field name, value) bindings applied in order to matching fields of
  the destination record, unknown names being ignored; a decoder
  failure is `none`.
-/

/-! ### Character model: ASCII/Latin-1 fragment of Go's unicode package -/

/-- Models unicode.IsSpace on the Latin-1 range
(tab, newline, vertical tab, form feed, carriage return, space,
next line U+0085, no-break space U+00A0). -/
def goIsSpace (c : Char) : Bool :=
  c = '\t' ∨ c = '\n' ∨ c.toNat = 11 ∨ c.toNat = 12 ∨ c = '\r' ∨ c = ' ' ∨
    c.toNat = 0x85 ∨ c.toNat = 0xA0

/-- Models unicode.IsLower on the Latin-1 range (category Ll:
a-z, micro sign U+00B5, U+00DF-U+00F6, U+00F8-U+00FF). -/
def goIsLower (c : Char) : Bool :=
  let n := c.toNat
  (97 ≤ n ∧ n ≤ 122) ∨ n = 0xB5 ∨ (0xDF ≤ n ∧ n ≤ 0xF6) ∨ (0xF8 ≤ n ∧ n ≤ 0xFF)

/-- Models unicode.IsUpper on the Latin-1 range (category Lu:
A-Z, U+00C0-U+00D6, U+00D8-U+00DE). -/
def goIsUpper (c : Char) : Bool :=
  let n := c.toNat
  (65 ≤ n ∧ n ≤ 90) ∨ (0xC0 ≤ n ∧ n ≤ 0xD6) ∨ (0xD8 ≤ n ∧ n ≤ 0xDE)

/-- Models unicode.IsDigit (category Nd is 0-9 in the Latin-1 range). -/
def goIsDigit (c : Char) : Bool :=
  48 ≤ c.toNat ∧ c.toNat ≤ 57

/-- Models unicode.ToUpper on the Latin-1 range.  The sharp s U+00DF has
no simple uppercase mapping and is left unchanged, U+00FF maps to
U+0178, the micro sign U+00B5 maps to U+039C. -/
def goToUpper (c : Char) : Char :=
  let n := c.toNat
  if 97 ≤ n ∧ n ≤ 122 then Char.ofNat (n - 32)
  else if (0xE0 ≤ n ∧ n ≤ 0xF6) ∨ (0xF8 ≤ n ∧ n ≤ 0xFE) then Char.ofNat (n - 32)
  else if n = 0xFF then Char.ofNat 0x178
  else if n = 0xB5 then Char.ofNat 0x39C
  else c

/-- Models unicode.ToLower on the Latin-1 range. -/
def goToLower (c : Char) : Char :=
  let n := c.toNat
  if 65 ≤ n ∧ n ≤ 90 then Char.ofNat (n + 32)
  else if (0xC0 ≤ n ∧ n ≤ 0xD6) ∨ (0xD8 ≤ n ∧ n ≤ 0xDE) then Char.ofNat (n + 32)
  else c

/-! ### String helpers from the Go standard library -/

/-- Models strings.TrimSpace: drop unicode space characters from both
ends. -/
def trimSpace (s : String) : String :=
  String.mk (((s.data.dropWhile goIsSpace).reverse.dropWhile goIsSpace).reverse)

/-- Models strings.ToLower (applied in the source only to file
extensions). -/
def strToLower (s : String) : String :=
  String.mk (s.data.map goToLower)

/-- Models strings.Split(s, ",")[0]: the segment before the first
comma (the whole string when there is no comma). -/
def splitCommaHead (s : String) : String :=
  String.mk (s.data.takeWhile (fun c => c ≠ ','))

/-- Scanning helper for `filepathExt`: walks the path from its end
(first argument is the reversed path), accumulating the characters
already passed, and stops at a path separator or at a dot. -/
def filepathExtScan : List Char → List Char → String
  | [], _ => ""
  | c :: rest, acc =>
      if c = '/' then ""
      else if c = '.' then String.mk ('.' :: acc)
      else filepathExtScan rest (c :: acc)

/-- Models path/filepath.Ext: the suffix of the final path element
starting at its last dot, or "" when the final element has no dot. -/
def filepathExt (path : String) : String :=
  filepathExtScan path.data.reverse []

/-! ### toEnvKey (konfig.go): transliterating a name to an env key -/

/-- Separator characters of toEnvKey: underscore, hyphen, dot and
unicode whitespace. -/
def isSepChar (c : Char) : Bool :=
  c = '_' ∨ c = '-' ∨ c = '.' ∨ goIsSpace c

/-- Models isBoundary (konfig.go): a lower-to-upper case transition or
a digit/non-digit transition in either direction. -/
def isBoundary (prev cur : Char) : Bool :=
  (goIsLower prev && goIsUpper cur) ||
    (goIsDigit cur && !goIsDigit prev) ||
      (goIsDigit prev && !goIsDigit cur)

/-- Models the appendUnderscore closure of toEnvKey.  The output list
is kept in reverse order (most recently appended character first), so
"the last appended character" is the head. -/
def appendUnderscoreRev (out : List Char) : List Char :=
  match out with
  | [] => out
  | c :: _ => if c = '_' then out else '_' :: out

/-- Models one iteration of the main loop of toEnvKey.  State: the
output (in reverse order) and prevRune (`none` encodes hasPrev =
false). -/
def toEnvKeyStep (st : List Char × Option Char) (r : Char) : List Char × Option Char :=
  if isSepChar r then
    (appendUnderscoreRev st.1, none)
  else
    let out1 :=
      match st.2 with
      | some p => if isBoundary p r then appendUnderscoreRev st.1 else st.1
      | none => st.1
    (goToUpper r :: out1, some r)

/-- Models the duplicate-collapsing/leading-trimming loop of toEnvKey:
an underscore is dropped when nothing has been kept yet or the last
kept character is an underscore.  The first argument is the last kept
character. -/
def collapseAux : Option Char → List Char → List Char
  | _, [] => []
  | last, c :: rest =>
      if c = '_' ∧ (last = none ∨ last = some '_') then collapseAux last rest
      else c :: collapseAux (some c) rest

/-- Entry point of the collapsing loop (nothing kept yet). -/
def collapseUnderscores (cs : List Char) : List Char :=
  collapseAux none cs

/-- Models the trailing-underscore trim loop of toEnvKey. -/
def trimTrailingUnderscores (cs : List Char) : List Char :=
  (cs.reverse.dropWhile (fun c => c = '_')).reverse

/-- Models toEnvKey (konfig.go): trim space, uppercase, insert an
underscore at separators and boundaries, collapse duplicates, trim
leading and trailing underscores. -/
def toEnvKey (name : String) : String :=
  let name := trimSpace name
  if name = "" then ""
  else
    let out := (name.data.foldl toEnvKeyStep ([], none)).1.reverse
    let out := collapseUnderscores out
    let out := trimTrailingUnderscores out
    String.mk out

/-! ### Record model: typed values and tagged fields -/

mutual

/-- Model of a Go value as seen through reflection, restricted to the
kinds the library handles.  `vint`/`vuint` carry the bit width of the
field's declared type (reflect Type.Bits).  A pointer carries its
pointee: for a nil pointer the pointee value acts as the carrier of
the pointee's type, which is all reflection can see of a nil pointer.
`vlist`/`vmap` stand for the slice and map kinds, which the env binder
cannot coerce into. -/
inductive CVal where
  | vstr (s : String)
  | vbool (b : Bool)
  | vint (bits : Nat) (v : Int)
  | vuint (bits : Nat) (v : Nat)
  | vlist
  | vmap
  | vstruct (fields : List CField)
  | vptr (pointee : CVal) (isNil : Bool)

/-- Model of a struct field: declared name, the five struct tags the
library consults (env, konfig, json, yaml, toml; "" when absent, as
with reflect.StructTag.Get), the IsExported flag, and the current
value. -/
inductive CField where
  | mk (name envTag konfigTag jsonTag yamlTag tomlTag : String)
      (exported : Bool) (val : CVal)

end

def CField.name : CField → String
  | .mk n _ _ _ _ _ _ _ => n

def CField.envTag : CField → String
  | .mk _ t _ _ _ _ _ _ => t

def CField.konfigTag : CField → String
  | .mk _ _ t _ _ _ _ _ => t

def CField.jsonTag : CField → String
  | .mk _ _ _ t _ _ _ _ => t

def CField.yamlTag : CField → String
  | .mk _ _ _ _ t _ _ _ => t

def CField.tomlTag : CField → String
  | .mk _ _ _ _ _ t _ _ => t

def CField.exported : CField → Bool
  | .mk _ _ _ _ _ _ e _ => e

def CField.val : CField → CVal
  | .mk _ _ _ _ _ _ _ v => v

/-- Replace the value of a field, keeping name, tags and visibility. -/
def CField.withVal : CField → CVal → CField
  | .mk n e k j y t ex _, v => .mk n e k j y t ex v

mutual

/-- Structural size of a value (constructor count of the struct/ptr
skeleton), used as the termination measure of the env binder walk. -/
def csizeVal : CVal → Nat
  | .vstruct fs => csizeFields fs + 1
  | .vptr p _ => csizeVal p + 1
  | _ => 1

def csizeField : CField → Nat
  | .mk _ _ _ _ _ _ _ v => csizeVal v + 1

def csizeFields : List CField → Nat
  | [] => 1
  | f :: fs => csizeField f + csizeFields fs

end

mutual

/-- Zero value of a value's type (models reflect.New of the type:
empty string, false, 0, nil pointers, recursively zeroed structs;
slice and map zero values are their nil values, which the model keeps
abstract). -/
def zeroOfVal : CVal → CVal
  | .vstr _ => .vstr ""
  | .vbool _ => .vbool false
  | .vint b _ => .vint b 0
  | .vuint b _ => .vuint b 0
  | .vlist => .vlist
  | .vmap => .vmap
  | .vstruct fs => .vstruct (zeroOfFields fs)
  | .vptr p _ => .vptr (zeroOfVal p) true

def zeroOfField : CField → CField
  | .mk n e k j y t ex v => .mk n e k j y t ex (zeroOfVal v)

def zeroOfFields : List CField → List CField
  | [] => []
  | f :: fs => zeroOfField f :: zeroOfFields fs

end

theorem csizeFields_pos (fs : List CField) : 0 < csizeFields fs := by
  cases fs with
  | nil => simp [csizeFields]
  | cons f fs => cases f; simp only [csizeFields, csizeField]; omega

theorem csizeField_pos (f : CField) : 0 < csizeField f := by
  cases f; simp [csizeField]

mutual

theorem csize_zeroOfVal (v : CVal) : csizeVal (zeroOfVal v) = csizeVal v := by
  cases v with
  | vstr s => simp [zeroOfVal, csizeVal]
  | vbool b => simp [zeroOfVal, csizeVal]
  | vint b v => simp [zeroOfVal, csizeVal]
  | vuint b v => simp [zeroOfVal, csizeVal]
  | vlist => simp [zeroOfVal, csizeVal]
  | vmap => simp [zeroOfVal, csizeVal]
  | vstruct fs => have := csize_zeroOfFields fs; simp [zeroOfVal, csizeVal]; omega
  | vptr p n => have := csize_zeroOfVal p; simp [zeroOfVal, csizeVal]; omega

theorem csize_zeroOfField (f : CField) : csizeField (zeroOfField f) = csizeField f := by
  cases f with
  | mk n e k j y t ex v =>
      have := csize_zeroOfVal v; simp [zeroOfField, csizeField]; omega

theorem csize_zeroOfFields (fs : List CField) :
    csizeFields (zeroOfFields fs) = csizeFields fs := by
  cases fs with
  | nil => simp [zeroOfFields]
  | cons f fs =>
      have h1 := csize_zeroOfField f
      have h2 := csize_zeroOfFields fs
      simp [zeroOfFields, csizeFields]
      omega

end

/-! ### strconv fragment: ParseBool, ParseInt, ParseUint (base 10) -/

/-- Models strconv.ParseBool: the exact twelve accepted spellings. -/
def parseBool (s : String) : Option Bool :=
  if s = "1" ∨ s = "t" ∨ s = "T" ∨ s = "true" ∨ s = "TRUE" ∨ s = "True" then some true
  else if s = "0" ∨ s = "f" ∨ s = "F" ∨ s = "false" ∨ s = "FALSE" ∨ s = "False" then
    some false
  else none

/-- Decimal digit-string value: `none` when empty or containing a
non-digit. -/
def decDigitsVal (cs : List Char) : Option Nat :=
  if cs = [] then none
  else if cs.all goIsDigit then
    some (cs.foldl (fun a c => a * 10 + (c.toNat - 48)) 0)
  else none

/-- Models strconv.ParseInt(s, 10, bits): optional sign, decimal
digits, range check against the signed width (an out-of-range value is
an error). -/
def parseInt (s : String) (bits : Nat) : Option Int :=
  match s.data with
  | [] => none
  | c :: rest =>
      let signDigits : Bool × List Char :=
        if c = '+' then (false, rest)
        else if c = '-' then (true, rest)
        else (false, c :: rest)
      match decDigitsVal signDigits.2 with
      | none => none
      | some n =>
          if signDigits.1 then
            if n ≤ 2 ^ (bits - 1) then some (-(n : Int)) else none
          else
            if n ≤ 2 ^ (bits - 1) - 1 then some (n : Int) else none

/-- Models strconv.ParseUint(s, 10, bits): decimal digits only (no
sign permitted), range check against the unsigned width. -/
def parseUint (s : String) (bits : Nat) : Option Nat :=
  match decDigitsVal s.data with
  | none => none
  | some n => if n ≤ 2 ^ bits - 1 then some n else none

/-! ### envKey and firstNonEmptyTagValue (konfig.go) -/

/-- Models reflect.StructTag.Get on the model field for the five tag
names the library uses ("" for any other name, as Get would). -/
def tagLookup (f : CField) (nm : String) : String :=
  if nm = "env" then f.envTag
  else if nm = "konfig" then f.konfigTag
  else if nm = "json" then f.jsonTag
  else if nm = "yaml" then f.yamlTag
  else if nm = "toml" then f.tomlTag
  else ""

/-- Models firstNonEmptyTagValue (konfig.go): first tag in the given
name order whose comma-head segment is neither empty nor the skip
sentinel. -/
def firstNonEmptyTagValue (f : CField) : List String → String
  | [] => ""
  | nm :: rest =>
      let tag := tagLookup f nm
      if tag = "" then firstNonEmptyTagValue f rest
      else
        let tag := splitCommaHead tag
        if tag = "-" ∨ tag = "" then firstNonEmptyTagValue f rest
        else tag

/-- Models envKey (konfig.go): env tag (a "-" value disables the
field), else the konfig/json/yaml/toml tag chain, else the declared
field name; the chosen name is transliterated by toEnvKey and the
prefix, when set, is prepended with an underscore.  Returns `none`
when the field has no usable key. -/
def envKey (f : CField) (pfx : String) : Option String :=
  let tag := f.envTag
  if tag = "-" then none
  else
    let tag := if tag ≠ "" then splitCommaHead tag else tag
    let name := tag
    let name :=
      if name = "" then firstNonEmptyTagValue f ["konfig", "json", "yaml", "toml"]
      else name
    let name := if name = "" then f.name else name
    let key := toEnvKey name
    if key = "" then none
    else if pfx ≠ "" then some (pfx ++ "_" ++ key)
    else some key

/-! ### assignFromString (konfig.go) -/

/-- Kind name of a value (reflect.Kind.String for the modelled
kinds). -/
def kindName : CVal → String
  | .vstr _ => "string"
  | .vbool _ => "bool"
  | .vint _ _ => "int"
  | .vuint _ _ => "uint"
  | .vlist => "slice"
  | .vmap => "map"
  | .vstruct _ => "struct"
  | .vptr _ _ => "ptr"

/-- Scalar switch of assignFromString, applied after the single
pointer dereference: string assigns verbatim, bool/int/uint parse with
strconv (on a parse failure the field keeps its value and an error is
reported), every other kind is unsupported.  The CanSet guard of the
source is always satisfied here: the walk only reaches addressable
exported fields. -/
def assignScalar (v : CVal) (value : String) : CVal × Option String :=
  match v with
  | .vstr _ => (.vstr value, none)
  | .vbool b =>
      match parseBool value with
      | some x => (.vbool x, none)
      | none => (.vbool b, some "invalid bool value")
  | .vint bits old =>
      match parseInt value bits with
      | some x => (.vint bits x, none)
      | none => (.vint bits old, some "invalid int value")
  | .vuint bits old =>
      match parseUint value bits with
      | some x => (.vuint bits x, none)
      | none => (.vuint bits old, some "invalid uint value")
  | other => (other, some ("unsupported kind " ++ kindName other))

/-- Models assignFromString (konfig.go): a pointer field is allocated
(zero value of the pointee) when nil, then dereferenced once; the
scalar switch runs on the pointee.  Allocation happens even when the
subsequent parse fails, exactly as in the source. -/
def assignFromString (v : CVal) (value : String) : CVal × Option String :=
  match v with
  | .vptr p isNil =>
      let p0 := if isNil then zeroOfVal p else p
      match assignScalar p0 value with
      | (p2, e) => (.vptr p2 false, e)
  | other => assignScalar other value

/-! ### Errors of the library surface -/

/-- Error outcomes of Load and its helpers.  `noSources` models the
distinguished ErrNoSources sentinel; `nilConfig` and `notPointer` are
the two validation errors of Load; `envNotPtr`/`envNotStructPtr` the
two validation errors of applyEnvOverrides; read, decode and set
errors carry the offending path or key exactly as the wrapped Go
errors do. -/
inductive LoadErr where
  | nilConfig
  | notPointer
  | envNotPtr
  | envNotStructPtr
  | readErr (path msg : String)
  | decodeErr (path : String)
  | setErr (key msg : String)
  | noSources
  deriving DecidableEq

/-! ### setStructFieldsFromEnv and applyEnvOverrides (konfig.go) -/

mutual

/-- Models the field loop of setStructFieldsFromEnv (konfig.go) over
the fields of one struct.  Returns the updated fields, the number of
fields assigned from the environment, and the first error.  On an
error the loop stops: fields after the faulting one are untouched, and
the counts accumulated inside the faulting field are discarded, as in
the source (`return applied, err`). -/
def setStructFieldsFromEnv (env : String → Option String) (pfx : String) :
    List CField → List CField × Nat × Option LoadErr
  | [] => ([], 0, none)
  | f :: rest =>
      match setStructFieldFromEnv env pfx f with
      | (f', _, some err) => (f' :: rest, 0, some err)
      | (f', n, none) =>
          match setStructFieldsFromEnv env pfx rest with
          | (rest', m, e') => (f' :: rest', n + m, e')
termination_by fs => csizeFields fs
decreasing_by
  · have := csizeFields_pos fs; simp only [csizeFields]; omega
  · have := csizeField_pos f; simp only [csizeFields]; omega

/-- Models one iteration of the loop body of setStructFieldsFromEnv:
skip unexported fields and fields without a usable key; recurse into a
struct field with the key as the new prefix; allocate a nil
pointer-to-struct field (zero value) and recurse into its pointee;
otherwise look the key up in the environment and assign the value,
wrapping an assignment failure with the key. -/
def setStructFieldFromEnv (env : String → Option String) (pfx : String) :
    CField → CField × Nat × Option LoadErr
  | .mk nm et kt jt yt tt ex v =>
      if ex = false then (.mk nm et kt jt yt tt ex v, 0, none)
      else
        match envKey (.mk nm et kt jt yt tt ex v) pfx with
        | none => (.mk nm et kt jt yt tt ex v, 0, none)
        | some key =>
            match v with
            | .vstruct inner =>
                match setStructFieldsFromEnv env key inner with
                | (inner', n, e) => (.mk nm et kt jt yt tt ex (.vstruct inner'), n, e)
            | .vptr (.vstruct pfields) isNil =>
                let start := if isNil then zeroOfFields pfields else pfields
                match setStructFieldsFromEnv env key start with
                | (inner', n, e) =>
                    (.mk nm et kt jt yt tt ex (.vptr (.vstruct inner') false), n, e)
            | other =>
                match env key with
                | none => (.mk nm et kt jt yt tt ex other, 0, none)
                | some value =>
                    match assignFromString other value with
                    | (v', some msg) =>
                        (.mk nm et kt jt yt tt ex v', 0, some (.setErr key msg))
                    | (v', none) => (.mk nm et kt jt yt tt ex v', 1, none)
termination_by f => csizeField f
decreasing_by
  · simp only [csizeField, csizeVal]; omega
  · have := csize_zeroOfFields pfields
    simp only [csizeField, csizeVal]
    split <;> omega

end

/-- Models applyEnvOverrides (konfig.go): the destination must be a
non-nil pointer ("env overrides require a struct pointer") whose
pointee is a struct ("env overrides require a pointer to struct");
then the field walk runs on the pointee. -/
def applyEnvOverrides (env : String → Option String) (rv : CVal) (pfx : String) :
    CVal × Nat × Option LoadErr :=
  match rv with
  | .vptr elem isNil =>
      if isNil then (rv, 0, some .envNotPtr)
      else
        match elem with
        | .vstruct fs =>
            match setStructFieldsFromEnv env pfx fs with
            | (fs', n, e) => (.vptr (.vstruct fs') false, n, e)
        | _ => (rv, 0, some .envNotStructPtr)
  | _ => (rv, 0, some .envNotPtr)

/-! ### Filesystem and decoder boundary -/

/-- Contents of a file as seen by the three format decoders
(collaborator contract of the spec): per decoder, either a decode
failure or the decoded document, a list of (field name, value)
bindings. -/
structure FileData where
  json : Option (List (String × CVal))
  toml : Option (List (String × CVal))
  yaml : Option (List (String × CVal))

/-- Outcome of os.ReadFile for one path: the file does not exist, some
other I/O error, or its contents. -/
inductive ReadRes where
  | notExist
  | ioError (msg : String)
  | content (data : FileData)

/-- Set the first field with the given name to the given value; a
binding whose name matches no field is ignored (decoders ignore
unknown keys). -/
def setNamedField : List CField → String → CVal → List CField
  | [], _, _ => []
  | f :: rest, k, x =>
      if f.name = k then f.withVal x :: rest
      else f :: setNamedField rest k x

/-- Apply a decoded document to the fields of a struct, binding by
binding in document order. -/
def applyDoc (fs : List CField) (doc : List (String × CVal)) : List CField :=
  doc.foldl (fun acc kv => setNamedField acc kv.1 kv.2) fs

/-- Populate the destination (a pointer to struct) from a decoded
document.  Decoding into a non-struct destination is modelled as a
no-op on success. -/
def decodeInto (doc : List (String × CVal)) (v : CVal) : CVal :=
  match v with
  | .vptr (.vstruct fs) b => .vptr (.vstruct (applyDoc fs doc)) b
  | other => other

/-- Models tryFallbackDecoders (konfig.go): try the TOML, JSON and
YAML decoders in that order, accepting the first that succeeds. -/
def tryFallbackDecoders (d : FileData) (config : CVal) : Option CVal :=
  match d.toml with
  | some doc => some (decodeInto doc config)
  | none =>
      match d.json with
      | some doc => some (decodeInto doc config)
      | none =>
          match d.yaml with
          | some doc => some (decodeInto doc config)
          | none => none

/-- Models unmarshalByExtension (konfig.go): dispatch on the
lower-cased file extension; .json/.toml/.yaml/.yml pick their decoder,
anything else tries the fallback decoders; a decoder failure is a
decode error naming the path. -/
def unmarshalByExtension (file : String) (d : FileData) (config : CVal) :
    Except LoadErr CVal :=
  let ext := strToLower (filepathExt file)
  if ext = ".json" then
    match d.json with
    | some doc => .ok (decodeInto doc config)
    | none => .error (.decodeErr file)
  else if ext = ".toml" then
    match d.toml with
    | some doc => .ok (decodeInto doc config)
    | none => .error (.decodeErr file)
  else if ext = ".yaml" ∨ ext = ".yml" then
    match d.yaml with
    | some doc => .ok (decodeInto doc config)
    | none => .error (.decodeErr file)
  else
    match tryFallbackDecoders d config with
    | some v => .ok v
    | none => .error (.decodeErr file)

/-- Models loadFirstAvailable (konfig.go): walk the candidate list,
skipping blank (after trimming) and missing entries; the first
readable candidate is decoded and the walk stops, successfully on a
clean decode, with an error otherwise.  A non-not-exist read error
also stops the walk. -/
def loadFirstAvailable (fsys : String → ReadRes) :
    List String → CVal → CVal × Bool × Option LoadErr
  | [], v => (v, false, none)
  | file :: rest, v =>
      let file := trimSpace file
      if file = "" then loadFirstAvailable fsys rest v
      else
        match fsys file with
        | .notExist => loadFirstAvailable fsys rest v
        | .ioError m => (v, false, some (.readErr file m))
        | .content d =>
            match unmarshalByExtension file d v with
            | .error e => (v, false, some e)
            | .ok v' => (v', true, none)

/-- Models loadSequential (konfig.go): walk the whole list, skipping
blank and missing entries, decoding every readable file in order over
the same record; a read or decode error stops the walk, keeping the
record state and the loaded flag accumulated so far. -/
def loadSequential (fsys : String → ReadRes) :
    List String → CVal → Bool → CVal × Bool × Option LoadErr
  | [], v, loaded => (v, loaded, none)
  | file :: rest, v, loaded =>
      let file := trimSpace file
      if file = "" then loadSequential fsys rest v loaded
      else
        match fsys file with
        | .notExist => loadSequential fsys rest v loaded
        | .ioError m => (v, loaded, some (.readErr file m))
        | .content d =>
            match unmarshalByExtension file d v with
            | .error e => (v, loaded, some e)
            | .ok v' => loadSequential fsys rest v' true

/-! ### Options and Load (konfig.go) -/

/-- Models the options struct of konfig.go: env-key prefix, explicit
file list, base name. -/
structure LoadOpts where
  envPfx : String
  files : List String
  base : String

/-- Zero value of the options struct. -/
def defaultOpts : LoadOpts := ⟨"", [], ""⟩

/-- Models the Option functions of konfig.go: `withEnvPfx` is
WithEnvPrefix (set the prefix), `withFiles` is WithFiles (append to
the file list), `withBase` is the internal withBase (set the base
name). -/
inductive KOption where
  | withEnvPfx (p : String)
  | withFiles (fs : List String)
  | withBase (b : String)

/-- Apply one option to the options struct, as the corresponding Go
closure does. -/
def applyOption (o : LoadOpts) : KOption → LoadOpts
  | .withEnvPfx p => { o with envPfx := p }
  | .withFiles fs => { o with files := o.files ++ fs }
  | .withBase b => { o with base := b }

/-- Candidate list probed in base-name mode, in the order built by
Load (konfig.go). -/
def baseCandidates (base : String) : List String :=
  [base ++ ".json", base ++ ".toml", base ++ ".yaml", base ++ ".yml"]

/-- Result of Load: the final state of the destination (`none` only
for a nil interface argument) and the error, `none` on success. -/
structure LoadResult where
  config : Option CVal
  err : Option LoadErr

/-- Base-name stage of Load: when a base is set, run
loadFirstAvailable on the four candidates. -/
def baseStage (fsys : String → ReadRes) (o : LoadOpts) (v : CVal) :
    CVal × Bool × Option LoadErr :=
  if o.base ≠ "" then loadFirstAvailable fsys (baseCandidates o.base) v
  else (v, false, none)

/-- Explicit-file stage of Load: when the file list is non-empty, run
loadSequential on it. -/
def filesStage (fsys : String → ReadRes) (o : LoadOpts) (v : CVal) :
    CVal × Bool × Option LoadErr :=
  if o.files ≠ [] then loadSequential fsys o.files v false
  else (v, false, none)

/-- Models Load (konfig.go).  `fsys` is the filesystem, `env` the
process environment, `config` the destination (`none` models a nil
interface value, `.vptr p true` a typed nil pointer).  Validation of
the nil/non-pointer destination happens first; then the base-name
stage, the explicit-file stage, and always the env binder; ErrNoSources
is returned when no stage populated anything. -/
def Load (fsys : String → ReadRes) (env : String → Option String)
    (config : Option CVal) (opts : List KOption) : LoadResult :=
  match config with
  | none => ⟨none, some .nilConfig⟩
  | some rv =>
      match rv with
      | .vptr _ true => ⟨some rv, some .notPointer⟩
      | .vptr pointee false =>
          let o := opts.foldl applyOption defaultOpts
          match baseStage fsys o (.vptr pointee false) with
          | (v1, _, some e) => ⟨some v1, some e⟩
          | (v1, loaded1, none) =>
              match filesStage fsys o v1 with
              | (v2, _, some e) => ⟨some v2, some e⟩
              | (v2, loaded2, none) =>
                  match applyEnvOverrides env v2 o.envPfx with
                  | (v3, _, some e) => ⟨some v3, some e⟩
                  | (v3, applied, none) =>
                      if ¬(loaded1 ∨ loaded2) ∧ applied = 0 then
                        ⟨some v3, some .noSources⟩
                      else ⟨some v3, none⟩
      | _ => ⟨some rv, some .notPointer⟩

/-! ### Tag comma-segment lemmas -/

theorem splitCommaHead_idem (s : String) :
    splitCommaHead (splitCommaHead s) = splitCommaHead s := by
  simp only [splitCommaHead, List.takeWhile_idem]

theorem splitCommaHead_nil : splitCommaHead "" = "" := by decide

theorem splitCommaHead_dash : splitCommaHead "-" = "-" := by decide

theorem toEnvKey_dash : toEnvKey "-" = "" := by decide

/-- The field with every consulted tag replaced by the segment before
its first comma. -/
def truncTags : CField → CField
  | .mk n e k j y t ex v =>
      .mk n (splitCommaHead e) (splitCommaHead k) (splitCommaHead j)
        (splitCommaHead y) (splitCommaHead t) ex v

theorem tagLookup_truncTags (f : CField) (nm : String) :
    tagLookup (truncTags f) nm = splitCommaHead (tagLookup f nm) := by
  cases f with
  | mk n e k j y t ex v =>
      simp only [truncTags, tagLookup, CField.envTag, CField.konfigTag, CField.jsonTag,
        CField.yamlTag, CField.tomlTag]
      split
      · rfl
      · split
        · rfl
        · split
          · rfl
          · split
            · rfl
            · split
              · rfl
              · decide

theorem firstNonEmptyTagValue_truncTags (f : CField) (names : List String) :
    firstNonEmptyTagValue (truncTags f) names = firstNonEmptyTagValue f names := by
  induction names with
  | nil => rfl
  | cons nm rest ih =>
      simp only [firstNonEmptyTagValue, tagLookup_truncTags]
      by_cases h0 : tagLookup f nm = ""
      · simp [h0, ih, splitCommaHead_nil]
      · by_cases h1 : splitCommaHead (tagLookup f nm) = ""
        · simp [h0, h1, ih, splitCommaHead_nil]
        · by_cases h2 : splitCommaHead (tagLookup f nm) = "-"
          · simp [h0, h1, h2, splitCommaHead_idem, splitCommaHead_dash, ih]
          · simp [h0, h1, h2, splitCommaHead_idem, ih]

theorem truncTags_name (f : CField) : (truncTags f).name = f.name := by
  cases f; rfl

theorem truncTags_envTag (f : CField) : (truncTags f).envTag = splitCommaHead f.envTag := by
  cases f; rfl

/-- Combination of a derived key with the configured prefix, as done
at the end of envKey: an empty key disables the field, a non-empty
prefix is prepended with an underscore. -/
def mkPfxKey (pfx key : String) : Option String :=
  if key = "" then none
  else if pfx ≠ "" then some (pfx ++ "_" ++ key)
  else some key

/-- Normal form of envKey: unless the env tag is the skip sentinel,
the name is the first non-empty of (comma-head of the env tag, the
konfig/json/yaml/toml tag chain, the declared name), transliterated
and prefixed. -/
theorem envKey_eq (f : CField) (pfx : String) :
    envKey f pfx =
      if f.envTag = "-" then none
      else
        mkPfxKey pfx (toEnvKey (
          if splitCommaHead f.envTag ≠ "" then splitCommaHead f.envTag
          else if firstNonEmptyTagValue f ["konfig", "json", "yaml", "toml"] ≠ "" then
            firstNonEmptyTagValue f ["konfig", "json", "yaml", "toml"]
          else f.name)) := by
  simp only [envKey, mkPfxKey]
  by_cases hdash : f.envTag = "-"
  · simp [hdash]
  · by_cases he : f.envTag = ""
    · have hsp : splitCommaHead f.envTag = "" := by rw [he]; exact splitCommaHead_nil
      by_cases hchain : firstNonEmptyTagValue f ["konfig", "json", "yaml", "toml"] = ""
      · simp [hdash, he, hsp, hchain, splitCommaHead_nil]
      · simp [hdash, he, hsp, hchain, splitCommaHead_nil]
    · by_cases hsp : splitCommaHead f.envTag = ""
      · by_cases hchain : firstNonEmptyTagValue f ["konfig", "json", "yaml", "toml"] = ""
        · simp [hdash, he, hsp, hchain, splitCommaHead_nil]
        · simp [hdash, he, hsp, hchain, splitCommaHead_nil]
      · simp [hdash, he, hsp]

/-- C10: key derivation uses only the segment before the first comma
of every consulted tag (env, konfig, json, yaml, toml); option
suffixes such as ",omitempty" never influence the derived key, and a
field tagged json:"port,omitempty" with no higher-priority tag derives
its environment key from "port". -/
theorem envKey_ignores_comma_options :
    (∀ (f : CField) (pfx : String), envKey (truncTags f) pfx = envKey f pfx) ∧
      envKey (.mk "Port" "" "" "port,omitempty" "" "" true (.vstr "")) "" = some "PORT" := by
  constructor
  · intro f pfx
    rw [envKey_eq, envKey_eq]
    rw [truncTags_envTag, truncTags_name, firstNonEmptyTagValue_truncTags,
      splitCommaHead_idem]
    by_cases hdash : f.envTag = "-"
    · have h2 : splitCommaHead f.envTag = "-" := by rw [hdash]; exact splitCommaHead_dash
      simp [hdash, h2, splitCommaHead_dash]
    · by_cases hdash2 : splitCommaHead f.envTag = "-"
      · -- an env tag such as "-,x": the truncated field is disabled by the
        -- sentinel check, the original transliterates "-" to the empty key
        have hne : splitCommaHead f.envTag ≠ "" := by rw [hdash2]; decide
        simp [hdash, hdash2, hne, toEnvKey_dash, mkPfxKey]
      · simp [hdash, hdash2]
  · decide

/-- C6 counterexample: the explicit env tag does not name the exact
key; its value is itself transliterated by toEnvKey, so a field tagged
env:"port" is looked up under "PORT", not "port". -/
theorem envKey_env_tag_not_exact :
    envKey (.mk "Port" "port" "" "" "" "" true (.vstr "")) "" = some "PORT" ∧
      ("PORT" : String) ≠ "port" :=
  ⟨by decide, by decide⟩

/-- C6 (amended): the environment key is derived by the first success
of, in priority order: the explicit env tag (a skip-sentinel value
disables the field entirely: no lookup, no recursion, no mutation);
the konfig alias tag; the structural json, yaml, toml tags in that
fixed order, first non-empty non-skip comma-head used; and finally the
field's declared name — but the winning name, including an explicit
env tag value, is transliterated through toEnvKey before use, and a
configured prefix is prepended with an underscore. -/
theorem envKey_priority (f : CField) (pfx : String) :
    (f.envTag = "-" → envKey f pfx = none) ∧
    (f.envTag ≠ "-" → splitCommaHead f.envTag ≠ "" →
      envKey f pfx = mkPfxKey pfx (toEnvKey (splitCommaHead f.envTag))) ∧
    (f.envTag ≠ "-" → splitCommaHead f.envTag = "" →
      firstNonEmptyTagValue f ["konfig", "json", "yaml", "toml"] ≠ "" →
      envKey f pfx =
        mkPfxKey pfx (toEnvKey (firstNonEmptyTagValue f ["konfig", "json", "yaml", "toml"]))) ∧
    (f.envTag ≠ "-" → splitCommaHead f.envTag = "" →
      firstNonEmptyTagValue f ["konfig", "json", "yaml", "toml"] = "" →
      envKey f pfx = mkPfxKey pfx (toEnvKey f.name)) ∧
    (∀ env, envKey f pfx = none → setStructFieldFromEnv env pfx f = (f, 0, none)) := by
  refine ⟨?_, ?_, ?_, ?_, ?_⟩
  · intro h; rw [envKey_eq]; simp [h]
  · intro h1 h2; rw [envKey_eq]; simp [h1, h2]
  · intro h1 h2 h3; rw [envKey_eq]; simp [h1, h2, h3]
  · intro h1 h2 h3; rw [envKey_eq]; simp [h1, h2, h3]
  · intro env h
    cases f with
    | mk nm et kt jt yt tt ex v =>
        by_cases hex : ex = false
        · subst hex
          simp [setStructFieldFromEnv]
        · have hex' : ex = true := by revert hex; cases ex <;> simp
          subst hex'
          simp [setStructFieldFromEnv, h]

theorem envKey_priority_witness :
    envKey (.mk "Name" "db,opt" "" "" "" "" true (.vstr "")) "P" =
      mkPfxKey "P" (toEnvKey (splitCommaHead "db,opt")) :=
  (envKey_priority (.mk "Name" "db,opt" "" "" "" "" true (.vstr "")) "P").2.1
    (by decide) (by decide)

/-! ### Base-name mode: first-match specification -/

/-- Modelled from the spec (base-name mode): a candidate is probed
successfully when its trimmed name is non-blank and the file is not
missing. -/
def probeHit (fsys : String → ReadRes) (file : String) : Bool :=
  if trimSpace file = "" then false
  else
    match fsys (trimSpace file) with
    | .notExist => false
    | _ => true

/-- Modelled from the spec: first-match-wins base-name resolution.
Only the first existing candidate is considered: a read error there or
a decode error of that single file aborts; otherwise exactly that one
file is decoded.  Candidates before it are skipped without error. -/
def firstMatchSpec (fsys : String → ReadRes) (files : List String) (v : CVal) :
    CVal × Bool × Option LoadErr :=
  match files.find? (probeHit fsys) with
  | none => (v, false, none)
  | some file =>
      match fsys (trimSpace file) with
      | .notExist => (v, false, none)
      | .ioError m => (v, false, some (.readErr (trimSpace file) m))
      | .content d =>
          match unmarshalByExtension (trimSpace file) d v with
          | .error e => (v, false, some e)
          | .ok v' => (v', true, none)

theorem loadFirstAvailable_eq_firstMatchSpec (fsys : String → ReadRes) :
    ∀ (files : List String) (v : CVal),
      loadFirstAvailable fsys files v = firstMatchSpec fsys files v := by
  intro files
  induction files with
  | nil => intro v; rfl
  | cons file rest ih =>
      intro v
      by_cases hb : trimSpace file = ""
      · have hph : probeHit fsys file = false := by simp [probeHit, hb]
        rw [show loadFirstAvailable fsys (file :: rest) v = loadFirstAvailable fsys rest v by
          simp [loadFirstAvailable, hb]]
        rw [ih]
        simp [firstMatchSpec, List.find?_cons, hph]
      · cases hf : fsys (trimSpace file) with
        | notExist =>
            have hph : probeHit fsys file = false := by simp [probeHit, hb, hf]
            rw [show loadFirstAvailable fsys (file :: rest) v = loadFirstAvailable fsys rest v by
              simp [loadFirstAvailable, hb, hf]]
            rw [ih]
            simp [firstMatchSpec, List.find?_cons, hph]
        | ioError m =>
            have hph : probeHit fsys file = true := by simp [probeHit, hb, hf]
            simp [loadFirstAvailable, firstMatchSpec, List.find?_cons, hph, hb, hf]
        | content d =>
            have hph : probeHit fsys file = true := by simp [probeHit, hb, hf]
            simp [loadFirstAvailable, firstMatchSpec, List.find?_cons, hph, hb, hf]

/-- C2: in base-name mode with base B, Load probes B.json, B.toml,
B.yaml, B.yml in exactly that order (the candidate list it hands to
loadFirstAvailable) and resolution is first-match-wins: only the first
existing readable candidate is decoded, never more than one; missing
candidates are skipped without error; a non-not-exist read error, or a
decode error of the chosen file, aborts. -/
theorem base_mode_first_match (fsys : String → ReadRes) (base : String) :
    baseCandidates base =
      [base ++ ".json", base ++ ".toml", base ++ ".yaml", base ++ ".yml"] ∧
    (∀ (o : LoadOpts) (v : CVal), o.base ≠ "" →
      baseStage fsys o v = firstMatchSpec fsys (baseCandidates o.base) v) ∧
    (∀ (files : List String) (v : CVal),
      loadFirstAvailable fsys files v = firstMatchSpec fsys files v) := by
  refine ⟨rfl, ?_, loadFirstAvailable_eq_firstMatchSpec fsys⟩
  intro o v hb
  rw [baseStage, if_pos hb]
  exact loadFirstAvailable_eq_firstMatchSpec fsys _ v

theorem base_mode_first_match_witness :
    baseStage (fun _ => ReadRes.notExist) ⟨"", [], "conf"⟩ (.vstr "") =
      firstMatchSpec (fun _ => ReadRes.notExist) (baseCandidates "conf") (.vstr "") :=
  (base_mode_first_match (fun _ => ReadRes.notExist) "conf").2.1 ⟨"", [], "conf"⟩
    (.vstr "") (by decide)

/-! ### Explicit-file mode: sequence and merge specification -/

/-- Document selected by the extension dispatch of unmarshalByExtension
for a file's data, `none` when the dispatched decoder (or, for an
unknown extension, every fallback decoder) fails. -/
def decodedDoc (file : String) (d : FileData) : Option (List (String × CVal)) :=
  let ext := strToLower (filepathExt file)
  if ext = ".json" then d.json
  else if ext = ".toml" then d.toml
  else if ext = ".yaml" ∨ ext = ".yml" then d.yaml
  else
    match d.toml with
    | some doc => some doc
    | none =>
        match d.json with
        | some doc => some doc
        | none => d.yaml

theorem unmarshalByExtension_eq_decodedDoc (file : String) (d : FileData) (v : CVal) :
    unmarshalByExtension file d v =
      match decodedDoc file d with
      | some doc => .ok (decodeInto doc v)
      | none => .error (.decodeErr file) := by
  simp only [unmarshalByExtension, decodedDoc, tryFallbackDecoders]
  split
  · cases d.json <;> rfl
  · split
    · cases d.toml <;> rfl
    · split
      · cases d.yaml <;> rfl
      · cases d.toml with
        | some doc => rfl
        | none =>
            cases d.json with
            | some doc => rfl
            | none => cases d.yaml <;> rfl

/-- Modelled from the spec: the documents that explicit-file mode
decodes, in order — one per list entry that is non-blank, exists and
decodes. -/
def seqDocs (fsys : String → ReadRes) : List String → List (List (String × CVal))
  | [] => []
  | file :: rest =>
      let g := trimSpace file
      if g = "" then seqDocs fsys rest
      else
        match fsys g with
        | .notExist => seqDocs fsys rest
        | .ioError _ => seqDocs fsys rest
        | .content d =>
            match decodedDoc g d with
            | some doc => doc :: seqDocs fsys rest
            | none => seqDocs fsys rest

/-- A list entry that does not fault in explicit-file mode: blank,
missing, or readable with a document its decoder accepts. -/
def CleanFile (fsys : String → ReadRes) (file : String) : Prop :=
  trimSpace file = "" ∨ fsys (trimSpace file) = .notExist ∨
    ∃ d, fsys (trimSpace file) = .content d ∧ decodedDoc (trimSpace file) d ≠ none

/-- Clean run of loadSequential: every existing file is decoded in
order over the same record, and the loaded flag records whether any
decode happened. -/
theorem loadSequential_clean (fsys : String → ReadRes) :
    ∀ (files : List String) (v : CVal) (loaded : Bool),
      (∀ f ∈ files, CleanFile fsys f) →
      loadSequential fsys files v loaded =
        ((seqDocs fsys files).foldl (fun w doc => decodeInto doc w) v,
          loaded || !(seqDocs fsys files).isEmpty, none) := by
  intro files
  induction files with
  | nil => intro v loaded _; simp [loadSequential, seqDocs]
  | cons file rest ih =>
      intro v loaded hclean
      have hc := hclean file (by simp)
      have hrest : ∀ f ∈ rest, CleanFile fsys f := fun f hf => hclean f (by simp [hf])
      rcases hc with hb | hmiss | ⟨d, hd, hdoc⟩
      · rw [show loadSequential fsys (file :: rest) v loaded =
            loadSequential fsys rest v loaded by simp [loadSequential, hb]]
        rw [ih v loaded hrest]
        simp [seqDocs, hb]
      · have hb : trimSpace file ≠ "" ∨ trimSpace file = "" := by tauto
        by_cases hbb : trimSpace file = ""
        · rw [show loadSequential fsys (file :: rest) v loaded =
              loadSequential fsys rest v loaded by simp [loadSequential, hbb]]
          rw [ih v loaded hrest]
          simp [seqDocs, hbb]
        · rw [show loadSequential fsys (file :: rest) v loaded =
              loadSequential fsys rest v loaded by simp [loadSequential, hbb, hmiss]]
          rw [ih v loaded hrest]
          simp [seqDocs, hbb, hmiss]
      · by_cases hbb : trimSpace file = ""
        · rw [show loadSequential fsys (file :: rest) v loaded =
              loadSequential fsys rest v loaded by simp [loadSequential, hbb]]
          rw [ih v loaded hrest]
          simp [seqDocs, hbb]
        · obtain ⟨doc, hdoc'⟩ : ∃ doc, decodedDoc (trimSpace file) d = some doc := by
            cases h : decodedDoc (trimSpace file) d
            · exact absurd h hdoc
            · exact ⟨_, rfl⟩
          rw [show loadSequential fsys (file :: rest) v loaded =
              loadSequential fsys rest (decodeInto doc v) true by
            simp [loadSequential, hbb, hd, unmarshalByExtension_eq_decodedDoc, hdoc']]
          rw [ih _ _ hrest]
          simp [seqDocs, hbb, hd, hdoc']

/-- loadSequential over an appended list: the second part runs from
the state the first part reached, and an error in the first part
discards the second entirely. -/
theorem loadSequential_append (fsys : String → ReadRes) :
    ∀ (pre xs : List String) (v : CVal) (loaded : Bool),
      loadSequential fsys (pre ++ xs) v loaded =
        match loadSequential fsys pre v loaded with
        | (v', l', none) => loadSequential fsys xs v' l'
        | (v', l', some e) => (v', l', some e) := by
  intro pre
  induction pre with
  | nil => intro xs v loaded; simp [loadSequential]
  | cons file rest ih =>
      intro xs v loaded
      by_cases hb : trimSpace file = ""
      · simp only [List.cons_append,
          show ∀ ys w l, loadSequential fsys (file :: ys) w l = loadSequential fsys ys w l
            from fun ys w l => by simp [loadSequential, hb]]
        exact ih xs v loaded
      · cases hf : fsys (trimSpace file) with
        | notExist =>
            simp only [List.cons_append,
              show ∀ ys w l, loadSequential fsys (file :: ys) w l = loadSequential fsys ys w l
                from fun ys w l => by simp [loadSequential, hb, hf]]
            exact ih xs v loaded
        | ioError m =>
            simp [loadSequential, hb, hf]
        | content d =>
            cases hu : unmarshalByExtension (trimSpace file) d v with
            | error e => simp [loadSequential, hb, hf, hu]
            | ok v' =>
                simp only [List.cons_append,
                  show ∀ ys, loadSequential fsys (file :: ys) v loaded =
                      loadSequential fsys ys v' true
                    from fun ys => by simp [loadSequential, hb, hf, hu]]
                exact ih xs v' true

/-- Lookup of the first field with a given name. -/
def findNamed : List CField → String → Option CField
  | [], _ => none
  | f :: rest, k => if f.name = k then some f else findNamed rest k

/-- Last value bound to a name in a document (bindings are applied in
order, so the last one wins). -/
def lastBound (doc : List (String × CVal)) (k : String) : Option CVal :=
  doc.foldl (fun acc kv => if kv.1 = k then some kv.2 else acc) none

theorem CField.withVal_withVal (f : CField) (x y : CVal) :
    (f.withVal x).withVal y = f.withVal y := by
  cases f; rfl

theorem CField.name_withVal (f : CField) (x : CVal) :
    (f.withVal x).name = f.name := by
  cases f; rfl

theorem findNamed_setNamedField (fs : List CField) (k k' : String) (x : CVal) :
    findNamed (setNamedField fs k x) k' =
      if k' = k then (findNamed fs k).map (fun f => f.withVal x)
      else findNamed fs k' := by
  induction fs with
  | nil => simp [setNamedField, findNamed]
  | cons f rest ih =>
      by_cases hk : k' = k
      · subst hk
        by_cases hf : f.name = k'
        · simp [setNamedField, findNamed, hf, CField.name_withVal]
        · simp [setNamedField, findNamed, hf, ih]
      · have hne : k ≠ k' := fun h => hk h.symm
        by_cases hf : f.name = k
        · by_cases hk' : f.name = k'
          · exact absurd (hf.symm.trans hk') hne
          · simp [setNamedField, findNamed, hf, CField.name_withVal, hk, hk', hne]
        · by_cases hk' : f.name = k'
          · rw [show setNamedField (f :: rest) k x = f :: setNamedField rest k x by
              simp [setNamedField, hf]]
            simp [findNamed, hk', hk]
          · rw [show setNamedField (f :: rest) k x = f :: setNamedField rest k x by
              simp [setNamedField, hf]]
            simp [findNamed, hk', hk, ih]

theorem lastBound_foldl (k : String) (rest : List (String × CVal)) :
    ∀ b, rest.foldl (fun acc kv => if kv.1 = k then some kv.2 else acc) b =
      match lastBound rest k with
      | some x => some x
      | none => b := by
  induction rest with
  | nil => intro b; simp [lastBound]
  | cons kv rest ih =>
      intro b
      simp only [List.foldl_cons]
      rw [ih]
      have hcons : lastBound (kv :: rest) k =
          match lastBound rest k with
          | some x => some x
          | none => if kv.1 = k then some kv.2 else none := by
        simp only [lastBound, List.foldl_cons]
        exact ih _
      rw [hcons]
      cases lastBound rest k with
      | some x => rfl
      | none => by_cases h : kv.1 = k <;> simp [h]

theorem lastBound_cons (k : String) (kv : String × CVal) (rest : List (String × CVal)) :
    lastBound (kv :: rest) k =
      match lastBound rest k with
      | some x => some x
      | none => if kv.1 = k then some kv.2 else none := by
  simp only [lastBound, List.foldl_cons]
  exact lastBound_foldl k rest _

/-- Pointwise effect of one decoded document on a record: a bound
field takes the document's last value for it, an unbound field is
unchanged, and bindings without a matching field are ignored. -/
theorem findNamed_applyDoc (fs : List CField) (doc : List (String × CVal)) (k : String) :
    findNamed (applyDoc fs doc) k =
      match lastBound doc k with
      | some x => (findNamed fs k).map (fun f => f.withVal x)
      | none => findNamed fs k := by
  induction doc generalizing fs with
  | nil => simp [applyDoc, lastBound]
  | cons kv rest ih =>
      have happ : applyDoc fs (kv :: rest) = applyDoc (setNamedField fs kv.1 kv.2) rest := by
        simp [applyDoc]
      rw [happ, ih, lastBound_cons]
      cases hr : lastBound rest k with
      | some x =>
          rw [findNamed_setNamedField]
          by_cases hkk : k = kv.1
          · subst hkk
            cases h2 : findNamed fs kv.1 with
            | none => simp [h2]
            | some f => simp [h2, CField.withVal_withVal]
          · simp [hkk]
      | none =>
          rw [findNamed_setNamedField]
          by_cases hkk : k = kv.1
          · subst hkk
            simp
          · have h2 : kv.1 ≠ k := fun h => hkk h.symm
            simp [if_neg hkk, if_neg h2]

/-- Folding several documents equals applying their concatenation. -/
theorem applyDoc_foldl (docs : List (List (String × CVal))) :
    ∀ fs, docs.foldl applyDoc fs = applyDoc fs docs.flatten := by
  induction docs with
  | nil => intro fs; simp [applyDoc]
  | cons doc rest ih =>
      intro fs
      simp only [List.foldl_cons, List.flatten_cons]
      rw [ih]
      simp [applyDoc, List.foldl_append]

/-- C8: in explicit-file mode every existing file in the list is
decoded in order: the final record is the in-order fold of the decoded
documents, so a field bound by a later document overwrites the value
from an earlier one while unbound fields retain their values
(pointwise merge conjuncts); blank entries and missing files are
skipped silently (they contribute no document); any other read error
or any decode error aborts the call, discarding the remaining files
but keeping the record state and loaded flag accumulated from the
earlier successful decodes. -/
theorem loadSequential_explicit_mode (fsys : String → ReadRes) :
    (∀ (files : List String) (v : CVal) (loaded : Bool),
      (∀ f ∈ files, CleanFile fsys f) →
      loadSequential fsys files v loaded =
        ((seqDocs fsys files).foldl (fun w doc => decodeInto doc w) v,
          loaded || !(seqDocs fsys files).isEmpty, none)) ∧
    (∀ (pre : List String) (bad : String) (post : List String) (v : CVal) (m : String),
      (∀ f ∈ pre, CleanFile fsys f) → trimSpace bad ≠ "" →
      fsys (trimSpace bad) = .ioError m →
      loadSequential fsys (pre ++ bad :: post) v false =
        ((seqDocs fsys pre).foldl (fun w doc => decodeInto doc w) v,
          !(seqDocs fsys pre).isEmpty, some (.readErr (trimSpace bad) m))) ∧
    (∀ (pre : List String) (bad : String) (post : List String) (v : CVal) (d : FileData),
      (∀ f ∈ pre, CleanFile fsys f) → trimSpace bad ≠ "" →
      fsys (trimSpace bad) = .content d → decodedDoc (trimSpace bad) d = none →
      loadSequential fsys (pre ++ bad :: post) v false =
        ((seqDocs fsys pre).foldl (fun w doc => decodeInto doc w) v,
          !(seqDocs fsys pre).isEmpty, some (.decodeErr (trimSpace bad)))) ∧
    (∀ (fs : List CField) (doc : List (String × CVal)) (k : String),
      findNamed (applyDoc fs doc) k =
        match lastBound doc k with
        | some x => (findNamed fs k).map (fun f => f.withVal x)
        | none => findNamed fs k) ∧
    (∀ (docs : List (List (String × CVal))) (fs : List CField),
      docs.foldl applyDoc fs = applyDoc fs docs.flatten) := by
  refine ⟨loadSequential_clean fsys, ?_, ?_, findNamed_applyDoc,
    fun docs fs => applyDoc_foldl docs fs⟩
  · intro pre bad post v m hclean hb hio
    rw [loadSequential_append, loadSequential_clean fsys pre v false hclean]
    simp [loadSequential, hb, hio]
  · intro pre bad post v d hclean hb hd hdoc
    rw [loadSequential_append, loadSequential_clean fsys pre v false hclean]
    simp [loadSequential, hb, hd, unmarshalByExtension_eq_decodedDoc, hdoc]

theorem loadSequential_explicit_mode_witness :
    loadSequential
        (fun p =>
          if p = "a.json" then .content ⟨some [("Server", .vstr "A")], none, none⟩
          else if p = "b.json" then .content ⟨some [("Server", .vstr "B")], none, none⟩
          else .notExist)
        ["a.json", "b.json"] (.vptr (.vstruct []) false) false =
      ((seqDocs
          (fun p =>
            if p = "a.json" then .content ⟨some [("Server", .vstr "A")], none, none⟩
            else if p = "b.json" then .content ⟨some [("Server", .vstr "B")], none, none⟩
            else .notExist)
          ["a.json", "b.json"]).foldl (fun w doc => decodeInto doc w)
        (.vptr (.vstruct []) false),
        !(seqDocs
            (fun p =>
              if p = "a.json" then .content ⟨some [("Server", .vstr "A")], none, none⟩
              else if p = "b.json" then .content ⟨some [("Server", .vstr "B")], none, none⟩
              else .notExist)
            ["a.json", "b.json"]).isEmpty, none) := by
  apply (loadSequential_explicit_mode _).1
  intro f hf
  simp only [List.mem_cons, List.mem_singleton, List.not_mem_nil, or_false] at hf
  rcases hf with rfl | rfl
  · right; right
    refine ⟨⟨some [("Server", .vstr "A")], none, none⟩, ?_, ?_⟩
    · rw [show trimSpace "a.json" = "a.json" from by decide]
      simp
    · rw [show trimSpace "a.json" = "a.json" from by decide]
      rw [show decodedDoc "a.json" ⟨some [("Server", CVal.vstr "A")], none, none⟩ =
          some [("Server", CVal.vstr "A")] from rfl]
      simp
  · right; right
    refine ⟨⟨some [("Server", .vstr "B")], none, none⟩, ?_, ?_⟩
    · rw [show trimSpace "b.json" = "b.json" from by decide]
      simp
    · rw [show trimSpace "b.json" = "b.json" from by decide]
      rw [show decodedDoc "b.json" ⟨some [("Server", CVal.vstr "B")], none, none⟩ =
          some [("Server", CVal.vstr "B")] from rfl]
      simp

/-! ### Validation ordering of Load -/

/-- Pointer kind test (reflect Kind == Ptr). -/
def isPtrVal : CVal → Bool
  | .vptr _ _ => true
  | _ => false

/-- Struct kind test (reflect Kind == Struct). -/
def isStructVal : CVal → Bool
  | .vstruct _ => true
  | _ => false

theorem decodeInto_non_struct_pointee (doc : List (String × CVal)) (p : CVal)
    (hp : isStructVal p = false) (b : Bool) :
    decodeInto doc (.vptr p b) = .vptr p b := by
  cases p <;> simp_all [decodeInto, isStructVal]

theorem loadFirstAvailable_non_struct_pointee (fsys : String → ReadRes) (p : CVal)
    (hp : isStructVal p = false) :
    ∀ files, ∃ l e, loadFirstAvailable fsys files (.vptr p false) = (.vptr p false, l, e) := by
  intro files
  induction files with
  | nil => exact ⟨false, none, rfl⟩
  | cons file rest ih =>
      by_cases hb : trimSpace file = ""
      · obtain ⟨l, e, h⟩ := ih
        exact ⟨l, e, by rw [show loadFirstAvailable fsys (file :: rest) (.vptr p false) =
          loadFirstAvailable fsys rest (.vptr p false) by simp [loadFirstAvailable, hb]]; exact h⟩
      · cases hf : fsys (trimSpace file) with
        | notExist =>
            obtain ⟨l, e, h⟩ := ih
            exact ⟨l, e, by rw [show loadFirstAvailable fsys (file :: rest) (.vptr p false) =
              loadFirstAvailable fsys rest (.vptr p false) by
                simp [loadFirstAvailable, hb, hf]]; exact h⟩
        | ioError m =>
            exact ⟨false, some (.readErr (trimSpace file) m),
              by simp [loadFirstAvailable, hb, hf]⟩
        | content d =>
            cases hdd : decodedDoc (trimSpace file) d with
            | none =>
                exact ⟨false, some (.decodeErr (trimSpace file)), by
                  simp [loadFirstAvailable, hb, hf,
                    unmarshalByExtension_eq_decodedDoc, hdd]⟩
            | some doc =>
                exact ⟨true, none, by
                  simp [loadFirstAvailable, hb, hf, unmarshalByExtension_eq_decodedDoc,
                    hdd, decodeInto_non_struct_pointee _ _ hp]⟩

theorem loadSequential_non_struct_pointee (fsys : String → ReadRes) (p : CVal)
    (hp : isStructVal p = false) :
    ∀ files loaded, ∃ l e,
      loadSequential fsys files (.vptr p false) loaded = (.vptr p false, l, e) := by
  intro files
  induction files with
  | nil => intro loaded; exact ⟨loaded, none, rfl⟩
  | cons file rest ih =>
      intro loaded
      by_cases hb : trimSpace file = ""
      · obtain ⟨l, e, h⟩ := ih loaded
        exact ⟨l, e, by rw [show loadSequential fsys (file :: rest) (.vptr p false) loaded =
          loadSequential fsys rest (.vptr p false) loaded by
            simp [loadSequential, hb]]; exact h⟩
      · cases hf : fsys (trimSpace file) with
        | notExist =>
            obtain ⟨l, e, h⟩ := ih loaded
            exact ⟨l, e, by rw [show loadSequential fsys (file :: rest) (.vptr p false) loaded =
              loadSequential fsys rest (.vptr p false) loaded by
                simp [loadSequential, hb, hf]]; exact h⟩
        | ioError m =>
            exact ⟨loaded, some (.readErr (trimSpace file) m),
              by simp [loadSequential, hb, hf]⟩
        | content d =>
            cases hdd : decodedDoc (trimSpace file) d with
            | none =>
                exact ⟨loaded, some (.decodeErr (trimSpace file)), by
                  simp [loadSequential, hb, hf, unmarshalByExtension_eq_decodedDoc, hdd]⟩
            | some doc =>
                obtain ⟨l, e, h⟩ := ih true
                refine ⟨l, e, ?_⟩
                rw [show loadSequential fsys (file :: rest) (.vptr p false) loaded =
                  loadSequential fsys rest (.vptr p false) true by
                    simp [loadSequential, hb, hf, unmarshalByExtension_eq_decodedDoc, hdd,
                      decodeInto_non_struct_pointee _ _ hp]]
                exact h

theorem applyEnvOverrides_non_struct_pointee (env : String → Option String) (p : CVal)
    (hp : isStructVal p = false) (pfx : String) :
    applyEnvOverrides env (.vptr p false) pfx = (.vptr p false, 0, some .envNotStructPtr) := by
  cases p <;> simp_all [applyEnvOverrides, isStructVal]

/-- C5 counterexample: for a destination that is a pointer to a
non-struct, Load performs file I/O before the struct check — with a
base name whose .json candidate exists but is malformed, the result is
the decode error of that file, not a validation error. -/
theorem load_validation_not_before_io_counterexample :
    Load (fun q => if q = "c.json" then .content ⟨none, none, none⟩ else .notExist)
        (fun _ => none) (some (.vptr (.vint 64 0) false)) [.withBase "c"] =
      ⟨some (.vptr (.vint 64 0) false), some (.decodeErr "c.json")⟩ ∧
    LoadErr.decodeErr "c.json" ≠ .envNotStructPtr ∧
    LoadErr.decodeErr "c.json" ≠ .notPointer ∧
    LoadErr.decodeErr "c.json" ≠ .nilConfig := by
  refine ⟨?_, by decide, by decide, by decide⟩
  simp +decide [Load, baseStage, filesStage, baseCandidates, loadFirstAvailable, trimSpace,
    unmarshalByExtension, strToLower, filepathExt, filepathExtScan, goToLower, defaultOpts,
    applyOption, goIsSpace]

/-- C5 (amended): a nil destination, a non-pointer destination, or a
nil pointer is rejected with a fatal validation error before any work,
independently of the filesystem; a non-nil pointer to a non-struct
always fails, but only at the environment-binder stage, after file
resolution — with no file options it fails with exactly the
pointer-to-struct validation error of the binder. -/
theorem load_validation_stages (fsys : String → ReadRes) (env : String → Option String)
    (opts : List KOption) :
    (Load fsys env none opts = ⟨none, some .nilConfig⟩) ∧
    (∀ v, isPtrVal v = false → Load fsys env (some v) opts = ⟨some v, some .notPointer⟩) ∧
    (∀ p, Load fsys env (some (.vptr p true)) opts = ⟨some (.vptr p true), some .notPointer⟩) ∧
    (∀ p, isStructVal p = false →
      (Load fsys env (some (.vptr p false)) opts).err ≠ none) ∧
    (∀ p, isStructVal p = false →
      (opts.foldl applyOption defaultOpts).base = "" →
      (opts.foldl applyOption defaultOpts).files = [] →
      Load fsys env (some (.vptr p false)) opts =
        ⟨some (.vptr p false), some .envNotStructPtr⟩) := by
  refine ⟨rfl, ?_, ?_, ?_, ?_⟩
  · intro v hv
    cases v <;> simp_all [Load, isPtrVal]
  · intro p
    simp [Load]
  · intro p hp
    set o := opts.foldl applyOption defaultOpts with ho
    by_cases hb : o.base = ""
    · have hbs : baseStage fsys o (.vptr p false) = (.vptr p false, false, none) := by
        simp [baseStage, hb]
      by_cases hfl : o.files = []
      · have hfs : filesStage fsys o (.vptr p false) = (.vptr p false, false, none) := by
          simp [filesStage, hfl]
        simp [Load, hbs, hfs, applyEnvOverrides_non_struct_pointee env p hp]
      · obtain ⟨l2, e2, h2⟩ := loadSequential_non_struct_pointee fsys p hp o.files false
        have hfs : filesStage fsys o (.vptr p false) = (.vptr p false, l2, e2) := by
          simp [filesStage, hfl, h2]
        cases e2 with
        | some e => simp [Load, hbs, hfs]
        | none => simp [Load, hbs, hfs, applyEnvOverrides_non_struct_pointee env p hp]
    · obtain ⟨l1, e1, h1⟩ :=
        loadFirstAvailable_non_struct_pointee fsys p hp (baseCandidates o.base)
      have hbs : baseStage fsys o (.vptr p false) = (.vptr p false, l1, e1) := by
        simp [baseStage, hb, h1]
      cases e1 with
      | some e => simp [Load, hbs]
      | none =>
          by_cases hfl : o.files = []
          · have hfs : filesStage fsys o (.vptr p false) = (.vptr p false, false, none) := by
              simp [filesStage, hfl]
            simp [Load, hbs, hfs, applyEnvOverrides_non_struct_pointee env p hp]
          · obtain ⟨l2, e2, h2⟩ := loadSequential_non_struct_pointee fsys p hp o.files false
            have hfs : filesStage fsys o (.vptr p false) = (.vptr p false, l2, e2) := by
              simp [filesStage, hfl, h2]
            cases e2 with
            | some e => simp [Load, hbs, hfs]
            | none => simp [Load, hbs, hfs, applyEnvOverrides_non_struct_pointee env p hp]
  · intro p hp hb hfl
    simp [Load, baseStage, filesStage, hb, hfl,
      applyEnvOverrides_non_struct_pointee env p hp]

theorem load_validation_stages_witness :
    Load (fun _ => ReadRes.notExist) (fun _ => none)
        (some (.vptr (.vint 64 0) false)) [] =
      ⟨some (.vptr (.vint 64 0) false), some .envNotStructPtr⟩ :=
  (load_validation_stages (fun _ => ReadRes.notExist) (fun _ => none) []).2.2.2.2
    (.vint 64 0) (by decide) (by decide) (by decide)

/-! ### NoSources conditions -/

mutual

/-- True when the value's tree contains no pointer-to-struct at a
position the env binder would traverse. -/
def noPtrStructVal : CVal → Bool
  | .vstruct fs => noPtrStructFields fs
  | .vptr p _ => !isStructVal p
  | _ => true

def noPtrStructField : CField → Bool
  | .mk _ _ _ _ _ _ _ v => noPtrStructVal v

def noPtrStructFields : List CField → Bool
  | [] => true
  | f :: fs => noPtrStructField f && noPtrStructFields fs

end

mutual

/-- With an empty environment the binder never errors and never
counts an application; it still allocates pointer-to-struct fields it
traverses, but a record without such fields is returned unchanged. -/
theorem emptyEnv_fields (pfx : String) (fs : List CField) :
    ∃ fs', setStructFieldsFromEnv (fun _ => none) pfx fs = (fs', 0, none) ∧
      (noPtrStructFields fs = true → fs' = fs) := by
  cases fs with
  | nil => exact ⟨[], by simp [setStructFieldsFromEnv], fun _ => rfl⟩
  | cons f rest =>
      obtain ⟨f', hf, hf2⟩ := emptyEnv_field pfx f
      obtain ⟨rest', hr, hr2⟩ := emptyEnv_fields pfx rest
      refine ⟨f' :: rest', ?_, ?_⟩
      · rw [show setStructFieldsFromEnv (fun _ => none) pfx (f :: rest) =
            (f' :: rest', 0 + 0, none) by
          rw [setStructFieldsFromEnv]
          rw [hf, hr]]
      · intro h
        simp only [noPtrStructFields, Bool.and_eq_true] at h
        rw [hf2 h.1, hr2 h.2]
termination_by csizeFields fs
decreasing_by
  · have := csizeFields_pos tail; simp only [csizeFields]; omega
  · have := csizeField_pos head; simp only [csizeFields]; omega

theorem emptyEnv_field (pfx : String) (f : CField) :
    ∃ f', setStructFieldFromEnv (fun _ => none) pfx f = (f', 0, none) ∧
      (noPtrStructField f = true → f' = f) := by
  cases f with
  | mk nm et kt jt yt tt ex v =>
      by_cases hex : ex = false
      · subst hex
        exact ⟨.mk nm et kt jt yt tt false v, by simp [setStructFieldFromEnv], fun _ => rfl⟩
      · have hex' : ex = true := by revert hex; cases ex <;> simp
        subst hex'
        cases hk : envKey (.mk nm et kt jt yt tt true v) pfx with
        | none =>
            exact ⟨.mk nm et kt jt yt tt true v,
              by simp [setStructFieldFromEnv, hk], fun _ => rfl⟩
        | some key =>
            match v with
            | .vstruct inner =>
                obtain ⟨inner', hi, hi2⟩ := emptyEnv_fields key inner
                refine ⟨.mk nm et kt jt yt tt true (.vstruct inner'), ?_, ?_⟩
                · rw [show setStructFieldFromEnv (fun _ => none) pfx
                      (.mk nm et kt jt yt tt true (.vstruct inner)) =
                      (.mk nm et kt jt yt tt true (.vstruct inner'), 0, none) by
                    rw [setStructFieldFromEnv]
                    simp [hk, hi]]
                · intro h
                  simp only [noPtrStructField, noPtrStructVal] at h
                  rw [hi2 h]
            | .vptr (.vstruct pfields) isNil =>
                obtain ⟨inner', hi, hi2⟩ :=
                  emptyEnv_fields key (if isNil then zeroOfFields pfields else pfields)
                refine ⟨.mk nm et kt jt yt tt true (.vptr (.vstruct inner') false), ?_, ?_⟩
                · rw [show setStructFieldFromEnv (fun _ => none) pfx
                      (.mk nm et kt jt yt tt true (.vptr (.vstruct pfields) isNil)) =
                      (.mk nm et kt jt yt tt true (.vptr (.vstruct inner') false), 0,
                        none) by
                    rw [setStructFieldFromEnv]
                    simp [hk, hi]]
                · intro h
                  simp [noPtrStructField, noPtrStructVal, isStructVal] at h
            | .vstr s =>
                exact ⟨.mk nm et kt jt yt tt true (.vstr s),
                  by rw [setStructFieldFromEnv]; simp [hk], fun _ => rfl⟩
            | .vbool b =>
                exact ⟨.mk nm et kt jt yt tt true (.vbool b),
                  by rw [setStructFieldFromEnv]; simp [hk], fun _ => rfl⟩
            | .vint bs i =>
                exact ⟨.mk nm et kt jt yt tt true (.vint bs i),
                  by rw [setStructFieldFromEnv]; simp [hk], fun _ => rfl⟩
            | .vuint bs u =>
                exact ⟨.mk nm et kt jt yt tt true (.vuint bs u),
                  by rw [setStructFieldFromEnv]; simp [hk], fun _ => rfl⟩
            | .vlist =>
                exact ⟨.mk nm et kt jt yt tt true .vlist,
                  by rw [setStructFieldFromEnv]; simp [hk], fun _ => rfl⟩
            | .vmap =>
                exact ⟨.mk nm et kt jt yt tt true .vmap,
                  by rw [setStructFieldFromEnv]; simp [hk], fun _ => rfl⟩
            | .vptr (.vstr s) isNil =>
                exact ⟨.mk nm et kt jt yt tt true (.vptr (.vstr s) isNil),
                  by rw [setStructFieldFromEnv]; simp [hk], fun _ => rfl⟩
            | .vptr (.vbool b) isNil =>
                exact ⟨.mk nm et kt jt yt tt true (.vptr (.vbool b) isNil),
                  by rw [setStructFieldFromEnv]; simp [hk], fun _ => rfl⟩
            | .vptr (.vint bs i) isNil =>
                exact ⟨.mk nm et kt jt yt tt true (.vptr (.vint bs i) isNil),
                  by rw [setStructFieldFromEnv]; simp [hk], fun _ => rfl⟩
            | .vptr (.vuint bs u) isNil =>
                exact ⟨.mk nm et kt jt yt tt true (.vptr (.vuint bs u) isNil),
                  by rw [setStructFieldFromEnv]; simp [hk], fun _ => rfl⟩
            | .vptr .vlist isNil =>
                exact ⟨.mk nm et kt jt yt tt true (.vptr .vlist isNil),
                  by rw [setStructFieldFromEnv]; simp [hk], fun _ => rfl⟩
            | .vptr .vmap isNil =>
                exact ⟨.mk nm et kt jt yt tt true (.vptr .vmap isNil),
                  by rw [setStructFieldFromEnv]; simp [hk], fun _ => rfl⟩
            | .vptr (.vptr q b) isNil =>
                exact ⟨.mk nm et kt jt yt tt true (.vptr (.vptr q b) isNil),
                  by rw [setStructFieldFromEnv]; simp [hk], fun _ => rfl⟩
termination_by csizeField f
decreasing_by
  · simp only [csizeField, csizeVal]; omega
  · have := csize_zeroOfFields pfields
    simp only [csizeField, csizeVal]
    split <;> omega

end

theorem unmarshalByExtension_error_shape (file : String) (d : FileData) (v : CVal)
    (e : LoadErr) (h : unmarshalByExtension file d v = .error e) : e = .decodeErr file := by
  rw [unmarshalByExtension_eq_decodedDoc] at h
  cases hdd : decodedDoc file d with
  | some doc => rw [hdd] at h; cases h
  | none => rw [hdd] at h; cases h; rfl

theorem loadFirstAvailable_err_shape (fsys : String → ReadRes) :
    ∀ (files : List String) (v : CVal) (e : LoadErr),
      (loadFirstAvailable fsys files v).2.2 = some e →
      (∃ p m, e = .readErr p m) ∨ (∃ p, e = .decodeErr p) := by
  intro files
  induction files with
  | nil => intro v e h; cases h
  | cons file rest ih =>
      intro v e h
      by_cases hb : trimSpace file = ""
      · rw [show loadFirstAvailable fsys (file :: rest) v =
            loadFirstAvailable fsys rest v by simp [loadFirstAvailable, hb]] at h
        exact ih v e h
      · cases hf : fsys (trimSpace file) with
        | notExist =>
            rw [show loadFirstAvailable fsys (file :: rest) v =
                loadFirstAvailable fsys rest v by simp [loadFirstAvailable, hb, hf]] at h
            exact ih v e h
        | ioError m =>
            rw [show loadFirstAvailable fsys (file :: rest) v =
                (v, false, some (.readErr (trimSpace file) m)) by
              simp [loadFirstAvailable, hb, hf]] at h
            cases h
            exact Or.inl ⟨_, _, rfl⟩
        | content d =>
            cases hu : unmarshalByExtension (trimSpace file) d v with
            | error e2 =>
                rw [show loadFirstAvailable fsys (file :: rest) v = (v, false, some e2) by
                  simp [loadFirstAvailable, hb, hf, hu]] at h
                cases h
                exact Or.inr ⟨_, unmarshalByExtension_error_shape _ _ _ _ hu⟩
            | ok v2 =>
                rw [show loadFirstAvailable fsys (file :: rest) v = (v2, true, none) by
                  simp [loadFirstAvailable, hb, hf, hu]] at h
                cases h

theorem loadSequential_err_shape (fsys : String → ReadRes) :
    ∀ (files : List String) (v : CVal) (loaded : Bool) (e : LoadErr),
      (loadSequential fsys files v loaded).2.2 = some e →
      (∃ p m, e = .readErr p m) ∨ (∃ p, e = .decodeErr p) := by
  intro files
  induction files with
  | nil => intro v loaded e h; cases h
  | cons file rest ih =>
      intro v loaded e h
      by_cases hb : trimSpace file = ""
      · rw [show loadSequential fsys (file :: rest) v loaded =
            loadSequential fsys rest v loaded by simp [loadSequential, hb]] at h
        exact ih v loaded e h
      · cases hf : fsys (trimSpace file) with
        | notExist =>
            rw [show loadSequential fsys (file :: rest) v loaded =
                loadSequential fsys rest v loaded by simp [loadSequential, hb, hf]] at h
            exact ih v loaded e h
        | ioError m =>
            rw [show loadSequential fsys (file :: rest) v loaded =
                (v, loaded, some (.readErr (trimSpace file) m)) by
              simp [loadSequential, hb, hf]] at h
            cases h
            exact Or.inl ⟨_, _, rfl⟩
        | content d =>
            cases hu : unmarshalByExtension (trimSpace file) d v with
            | error e2 =>
                rw [show loadSequential fsys (file :: rest) v loaded =
                    (v, loaded, some e2) by simp [loadSequential, hb, hf, hu]] at h
                cases h
                exact Or.inr ⟨_, unmarshalByExtension_error_shape _ _ _ _ hu⟩
            | ok v2 =>
                rw [show loadSequential fsys (file :: rest) v loaded =
                    loadSequential fsys rest v2 true by
                  simp [loadSequential, hb, hf, hu]] at h
                exact ih v2 true e h

/-- Env-branch (leaf) kinds of the walk: neither a struct nor a
pointer-to-struct. -/
def isEnvLeaf : CVal → Bool
  | .vstruct _ => false
  | .vptr (.vstruct _) _ => false
  | _ => true

/-- A field that is unexported or has no usable key is skipped
untouched. -/
theorem setStructFieldFromEnv_skip (env : String → Option String) (pfx : String)
    (f : CField) (h : f.exported = false ∨ envKey f pfx = none) :
    setStructFieldFromEnv env pfx f = (f, 0, none) := by
  cases f with
  | mk nm et kt jt yt tt ex v =>
      rcases h with h | h
      · rw [show ex = false from h]
        rw [setStructFieldFromEnv]
        simp
      · by_cases hex : ex = false
        · subst hex; rw [setStructFieldFromEnv]; simp
        · have hex' : ex = true := by revert hex; cases ex <;> simp
          subst hex'
          rw [setStructFieldFromEnv]
          simp [h]

/-- Walk step on a leaf field with a usable key: look the key up and
assign. -/
theorem setStructFieldFromEnv_leaf_key (env : String → Option String) (pfx : String)
    (nm et kt jt yt tt : String) (v : CVal) (hleaf : isEnvLeaf v = true) (key : String)
    (hk : envKey (.mk nm et kt jt yt tt true v) pfx = some key) :
    setStructFieldFromEnv env pfx (.mk nm et kt jt yt tt true v) =
      match env key with
      | none => (.mk nm et kt jt yt tt true v, 0, none)
      | some value =>
          match assignFromString v value with
          | (v2, some msg) => (.mk nm et kt jt yt tt true v2, 0, some (.setErr key msg))
          | (v2, none) => (.mk nm et kt jt yt tt true v2, 1, none) := by
  cases v with
  | vstruct fs => simp [isEnvLeaf] at hleaf
  | vptr p b =>
      cases p with
      | vstruct fs => simp [isEnvLeaf] at hleaf
      | vstr s => rw [setStructFieldFromEnv]; simp [hk]
      | vbool b2 => rw [setStructFieldFromEnv]; simp [hk]
      | vint bs i => rw [setStructFieldFromEnv]; simp [hk]
      | vuint bs u => rw [setStructFieldFromEnv]; simp [hk]
      | vlist => rw [setStructFieldFromEnv]; simp [hk]
      | vmap => rw [setStructFieldFromEnv]; simp [hk]
      | vptr q b2 => rw [setStructFieldFromEnv]; simp [hk]
  | vstr s => rw [setStructFieldFromEnv]; simp [hk]
  | vbool b => rw [setStructFieldFromEnv]; simp [hk]
  | vint bs i => rw [setStructFieldFromEnv]; simp [hk]
  | vuint bs u => rw [setStructFieldFromEnv]; simp [hk]
  | vlist => rw [setStructFieldFromEnv]; simp [hk]
  | vmap => rw [setStructFieldFromEnv]; simp [hk]

/-- Walk step on a struct field with a usable key: recurse with the
key as prefix. -/
theorem setStructFieldFromEnv_struct_key (env : String → Option String) (pfx : String)
    (nm et kt jt yt tt : String) (inner : List CField) (key : String)
    (hk : envKey (.mk nm et kt jt yt tt true (.vstruct inner)) pfx = some key)
    (inner2 : List CField) (n : Nat) (e : Option LoadErr)
    (hi : setStructFieldsFromEnv env key inner = (inner2, n, e)) :
    setStructFieldFromEnv env pfx (.mk nm et kt jt yt tt true (.vstruct inner)) =
      (.mk nm et kt jt yt tt true (.vstruct inner2), n, e) := by
  rw [setStructFieldFromEnv]
  simp [hk, hi]

/-- Walk step on a pointer-to-struct field with a usable key: allocate
when nil, then recurse into the pointee with the key as prefix; the
pointer is non-nil afterwards in every case. -/
theorem setStructFieldFromEnv_ptr_key (env : String → Option String) (pfx : String)
    (nm et kt jt yt tt : String) (pfields : List CField) (isNil : Bool) (key : String)
    (hk : envKey (.mk nm et kt jt yt tt true (.vptr (.vstruct pfields) isNil)) pfx =
      some key)
    (inner2 : List CField) (n : Nat) (e : Option LoadErr)
    (hi : setStructFieldsFromEnv env key
        (if isNil then zeroOfFields pfields else pfields) = (inner2, n, e)) :
    setStructFieldFromEnv env pfx
        (.mk nm et kt jt yt tt true (.vptr (.vstruct pfields) isNil)) =
      (.mk nm et kt jt yt tt true (.vptr (.vstruct inner2) false), n, e) := by
  rw [setStructFieldFromEnv]
  simp [hk, hi]

/-- Cons step of the field loop. -/
theorem setStructFieldsFromEnv_cons (env : String → Option String) (pfx : String)
    (f : CField) (rest : List CField) :
    setStructFieldsFromEnv env pfx (f :: rest) =
      match setStructFieldFromEnv env pfx f with
      | (f2, _, some err) => (f2 :: rest, 0, some err)
      | (f2, n, none) =>
          match setStructFieldsFromEnv env pfx rest with
          | (rest2, m, e2) => (f2 :: rest2, n + m, e2) := by
  rw [setStructFieldsFromEnv]

mutual

theorem setStructFieldsFromEnv_err_shape (env : String → Option String) (pfx : String)
    (fs : List CField) (e : LoadErr)
    (h : (setStructFieldsFromEnv env pfx fs).2.2 = some e) : ∃ k m, e = .setErr k m := by
  cases fs with
  | nil => rw [setStructFieldsFromEnv] at h; cases h
  | cons head tail =>
      rw [setStructFieldsFromEnv_cons] at h
      rcases hstep : setStructFieldFromEnv env pfx head with ⟨f1, n1, e1⟩
      cases e1 with
      | some e2 =>
          rw [hstep] at h
          have he : e2 = e := Option.some.inj h
          subst he
          exact setStructFieldFromEnv_err_shape env pfx head e2 (by rw [hstep])
      | none =>
          rw [hstep] at h
          have h2 : (match setStructFieldsFromEnv env pfx tail with
              | (rest2, m, e2) => (f1 :: rest2, n1 + m, e2)).2.2 = some e := h
          rcases hrest : setStructFieldsFromEnv env pfx tail with ⟨fs2, n2, e2⟩
          rw [hrest] at h2
          cases e2 with
          | none => exact Option.noConfusion h2
          | some e3 =>
              have he : e3 = e := Option.some.inj h2
              subst he
              exact setStructFieldsFromEnv_err_shape env pfx tail e3 (by rw [hrest])
  termination_by csizeFields fs
  decreasing_by
    all_goals subst_vars
    all_goals
      first
        | (have h1 := csizeField_pos head
           have h2 := csizeFields_pos tail
           simp only [csizeFields]
           omega)
        | (simp only [csizeField, csizeVal]; omega)
        | (simp only [csizeField, csizeVal]
           split
           · rw [csize_zeroOfFields]; omega
           · omega)

theorem setStructFieldFromEnv_err_shape (env : String → Option String) (pfx : String)
    (f : CField) (e : LoadErr)
    (h : (setStructFieldFromEnv env pfx f).2.2 = some e) : ∃ k m, e = .setErr k m := by
  cases f with
  | mk nm et kt jt yt tt ex v =>
      by_cases hex : ex = false
      · rw [setStructFieldFromEnv_skip env pfx _ (Or.inl (by simpa [CField.exported]))] at h
        cases h
      · have hex' : ex = true := by revert hex; cases ex <;> simp
        subst hex'
        cases hk : envKey (.mk nm et kt jt yt tt true v) pfx with
        | none =>
            rw [setStructFieldFromEnv_skip env pfx _ (Or.inr hk)] at h
            cases h
        | some key =>
            by_cases hleaf : isEnvLeaf v = true
            · rw [setStructFieldFromEnv_leaf_key env pfx nm et kt jt yt tt v hleaf key hk]
                at h
              cases henv : env key with
              | none => rw [henv] at h; exact Option.noConfusion h
              | some value =>
                  rw [henv] at h
                  have h2 : (match assignFromString v value with
                      | (v2, some msg) =>
                          ((CField.mk nm et kt jt yt tt true v2 : CField), 0,
                            some (LoadErr.setErr key msg))
                      | (v2, none) =>
                          (CField.mk nm et kt jt yt tt true v2, 1,
                            (none : Option LoadErr))).2.2 = some e := h
                  rcases ha : assignFromString v value with ⟨v2, e2⟩
                  rw [ha] at h2
                  cases e2 with
                  | none => exact Option.noConfusion h2
                  | some msg =>
                      have he : LoadErr.setErr key msg = e := Option.some.inj h2
                      exact ⟨key, msg, he.symm⟩
            · cases v with
              | vstruct inner =>
                  rcases hi : setStructFieldsFromEnv env key inner with ⟨fs2, n2, e2⟩
                  rw [setStructFieldFromEnv_struct_key env pfx nm et kt jt yt tt inner key
                    hk fs2 n2 e2 hi] at h
                  cases e2 with
                  | none => exact Option.noConfusion h
                  | some e3 =>
                      have he : e3 = e := Option.some.inj h
                      subst he
                      exact setStructFieldsFromEnv_err_shape env key inner e3 (by rw [hi])
              | vptr p isNil =>
                  cases p with
                  | vstruct pfields =>
                      rcases hi : setStructFieldsFromEnv env key
                          (if isNil then zeroOfFields pfields else pfields) with
                        ⟨fs2, n2, e2⟩
                      rw [setStructFieldFromEnv_ptr_key env pfx nm et kt jt yt tt pfields
                        isNil key hk fs2 n2 e2 hi] at h
                      cases e2 with
                      | none => exact Option.noConfusion h
                      | some e3 =>
                          have he : e3 = e := Option.some.inj h
                          subst he
                          exact setStructFieldsFromEnv_err_shape env key _ e3 (by rw [hi])
                  | vstr s => simp [isEnvLeaf] at hleaf
                  | vbool b => simp [isEnvLeaf] at hleaf
                  | vint bs i => simp [isEnvLeaf] at hleaf
                  | vuint bs u => simp [isEnvLeaf] at hleaf
                  | vlist => simp [isEnvLeaf] at hleaf
                  | vmap => simp [isEnvLeaf] at hleaf
                  | vptr q b2 => simp [isEnvLeaf] at hleaf
              | vstr s => simp [isEnvLeaf] at hleaf
              | vbool b => simp [isEnvLeaf] at hleaf
              | vint bs i => simp [isEnvLeaf] at hleaf
              | vuint bs u => simp [isEnvLeaf] at hleaf
              | vlist => simp [isEnvLeaf] at hleaf
              | vmap => simp [isEnvLeaf] at hleaf
  termination_by csizeField f
  decreasing_by
    all_goals subst_vars
    all_goals
      first
        | (simp only [csizeField, csizeVal]; omega)
        | (simp only [csizeField, csizeVal]
           split
           · rw [csize_zeroOfFields]; omega
           · omega)

end

theorem applyEnvOverrides_err_shape (env : String → Option String) (rv : CVal)
    (pfx : String) (e : LoadErr) (h : (applyEnvOverrides env rv pfx).2.2 = some e) :
    e = .envNotPtr ∨ e = .envNotStructPtr ∨ ∃ k m, e = .setErr k m := by
  cases rv with
  | vptr elem isNil =>
      cases isNil with
      | true => left; exact (Option.some.inj h).symm
      | false =>
          cases elem with
          | vstruct fs =>
              rcases hp : setStructFieldsFromEnv env pfx fs with ⟨fs2, n2, e2⟩
              have h2 : e2 = some e := by simpa [applyEnvOverrides, hp] using h
              cases e2 with
              | none => cases h2
              | some e3 =>
                  right; right
                  have he := Option.some.inj h2
                  subst he
                  exact setStructFieldsFromEnv_err_shape env pfx fs e3 (by rw [hp])
          | vstr s => right; left; exact (Option.some.inj h).symm
          | vbool b => right; left; exact (Option.some.inj h).symm
          | vint bs i => right; left; exact (Option.some.inj h).symm
          | vuint bs u => right; left; exact (Option.some.inj h).symm
          | vlist => right; left; exact (Option.some.inj h).symm
          | vmap => right; left; exact (Option.some.inj h).symm
          | vptr q b => right; left; exact (Option.some.inj h).symm
  | vstr s => left; exact (Option.some.inj h).symm
  | vbool b => left; exact (Option.some.inj h).symm
  | vint bs i => left; exact (Option.some.inj h).symm
  | vuint bs u => left; exact (Option.some.inj h).symm
  | vlist => left; exact (Option.some.inj h).symm
  | vmap => left; exact (Option.some.inj h).symm
  | vstruct fs => left; exact (Option.some.inj h).symm

/-- C3 counterexample: with empty settings and no matching environment
variables, Load does return NoSources, but it does not leave every
record at its zero value — a nil pointer-to-struct field is allocated
by the binder's traversal, so the record differs from its zero value
after the call. -/
theorem load_nosources_not_zero_value_counterexample :
    Load (fun _ => .notExist) (fun _ => none)
        (some (.vptr (.vstruct [.mk "Inner" "" "" "" "" "" true
          (.vptr (.vstruct [.mk "Value" "" "" "" "" "" true (.vstr "")]) true)]) false)) [] =
      ⟨some (.vptr (.vstruct [.mk "Inner" "" "" "" "" "" true
        (.vptr (.vstruct [.mk "Value" "" "" "" "" "" true (.vstr "")]) false)]) false),
        some .noSources⟩ ∧
    (.vptr (.vstruct [.mk "Inner" "" "" "" "" "" true
        (.vptr (.vstruct [.mk "Value" "" "" "" "" "" true (.vstr "")]) false)]) false : CVal) ≠
      .vptr (.vstruct [.mk "Inner" "" "" "" "" "" true
        (.vptr (.vstruct [.mk "Value" "" "" "" "" "" true (.vstr "")]) true)]) false := by
  constructor
  · simp +decide [Load, baseStage, filesStage, applyEnvOverrides, setStructFieldsFromEnv,
      setStructFieldFromEnv, envKey, toEnvKey, defaultOpts, trimSpace, firstNonEmptyTagValue,
      tagLookup, splitCommaHead, CField.envTag, CField.konfigTag, CField.jsonTag,
      CField.yamlTag, CField.tomlTag, CField.name, toEnvKeyStep, isSepChar, goIsSpace,
      appendUnderscoreRev, isBoundary, goIsLower, goIsUpper, goIsDigit, goToUpper,
      collapseUnderscores, collapseAux, trimTrailingUnderscores, zeroOfFields, zeroOfField,
      zeroOfVal]
  · simp

/-- C3 (amended): Load reports NoSources exactly when the destination
passed validation (a non-nil pointer), no stage faulted, no file was
decoded, and the environment pass completed without error having
applied zero variables.  For every destination record called with
empty settings and an empty environment, Load returns NoSources; the
record keeps its zero value except that nil pointer-to-struct fields
reached by the traversal are allocated — a record without
pointer-to-struct fields is returned unchanged. -/
theorem load_nosources_characterization :
    (∀ (fsys : String → ReadRes) (env : String → Option String)
        (opts : List KOption) (v : CVal),
      (Load fsys env (some v) opts).err = some .noSources ↔
        ∃ pointee v1 v2 v3 n,
          v = .vptr pointee false ∧
          baseStage fsys (opts.foldl applyOption defaultOpts) v = (v1, false, none) ∧
          filesStage fsys (opts.foldl applyOption defaultOpts) v1 = (v2, false, none) ∧
          applyEnvOverrides env v2 (opts.foldl applyOption defaultOpts).envPfx =
            (v3, n, none) ∧
          n = 0) ∧
    (∀ (fsys : String → ReadRes) (fs0 : List CField),
      ∃ fs', Load fsys (fun _ => none) (some (.vptr (.vstruct fs0) false)) [] =
        ⟨some (.vptr (.vstruct fs') false), some .noSources⟩ ∧
        (noPtrStructFields fs0 = true → fs' = fs0)) := by
  constructor
  · intro fsys env opts v
    constructor
    · intro h
      cases v with
      | vptr pointee isNil =>
          cases isNil with
          | true => simp [Load] at h
          | false =>
              rcases hbs : baseStage fsys (opts.foldl applyOption defaultOpts)
                  (.vptr pointee false) with ⟨v1, l1, e1⟩
              cases e1 with
              | some e =>
                  have he : e = LoadErr.noSources := by simpa [Load, hbs] using h
                  have hsh : (∃ p m, e = .readErr p m) ∨ (∃ p, e = .decodeErr p) := by
                    by_cases hb : (opts.foldl applyOption defaultOpts).base = ""
                    · rw [baseStage, if_neg (by simp [hb])] at hbs
                      exact absurd hbs (by simp)
                    · rw [baseStage, if_pos (by simpa using hb)] at hbs
                      exact loadFirstAvailable_err_shape fsys _ _ e (by rw [hbs])
                  rcases hsh with ⟨p, m, he2⟩ | ⟨p, he2⟩ <;> rw [he2] at he <;> cases he
              | none =>
                  rcases hfs : filesStage fsys (opts.foldl applyOption defaultOpts) v1 with
                    ⟨v2, l2, e2⟩
                  cases e2 with
                  | some e =>
                      have he : e = LoadErr.noSources := by simpa [Load, hbs, hfs] using h
                      have hsh : (∃ p m, e = .readErr p m) ∨ (∃ p, e = .decodeErr p) := by
                        by_cases hfl : (opts.foldl applyOption defaultOpts).files = []
                        · rw [filesStage, if_neg (by simp [hfl])] at hfs
                          exact absurd hfs (by simp)
                        · rw [filesStage, if_pos (by simpa using hfl)] at hfs
                          exact loadSequential_err_shape fsys _ _ _ e (by rw [hfs])
                      rcases hsh with ⟨p, m, he2⟩ | ⟨p, he2⟩ <;> rw [he2] at he <;> cases he
                  | none =>
                      rcases hen : applyEnvOverrides env v2
                          (opts.foldl applyOption defaultOpts).envPfx with ⟨v3, n, e3⟩
                      cases e3 with
                      | some e =>
                          have he : e = LoadErr.noSources := by
                            simpa [Load, hbs, hfs, hen] using h
                          have hsh := applyEnvOverrides_err_shape env v2
                            (opts.foldl applyOption defaultOpts).envPfx e (by rw [hen])
                          rcases hsh with he2 | he2 | ⟨k, m, he2⟩ <;> rw [he2] at he <;>
                            cases he
                      | none =>
                          by_cases hcond : ¬(l1 = true ∨ l2 = true) ∧ n = 0
                          · refine ⟨pointee, v1, v2, v3, n, rfl, ?_, ?_, ?_, hcond.2⟩
                            · have hl1 : l1 = false := by
                                revert hcond; cases l1 <;> simp
                              subst hl1
                              first
                                | exact hbs
                                | rfl
                            · have hl2 : l2 = false := by
                                revert hcond; cases l2 <;> simp
                              subst hl2
                              first
                                | exact hfs
                                | rfl
                            · first
                                | exact hen
                                | rfl
                          · have hnc : ¬((l1 = false ∧ l2 = false) ∧ n = 0) := by
                              intro hc
                              exact hcond ⟨by simp [hc.1.1, hc.1.2], hc.2⟩
                            simp only [Load, hbs, hfs, hen] at h
                            rw [if_neg hcond] at h
                            exact Option.noConfusion h
      | vstr s => simp [Load] at h
      | vbool b => simp [Load] at h
      | vint bs i => simp [Load] at h
      | vuint bs u => simp [Load] at h
      | vlist => simp [Load] at h
      | vmap => simp [Load] at h
      | vstruct fs => simp [Load] at h
    · rintro ⟨pointee, v1, v2, v3, n, rfl, hbs, hfs, hen, hn⟩
      subst hn
      simp [Load, hbs, hfs, hen]
  · intro fsys fs0
    obtain ⟨fs', hpass, hid⟩ := emptyEnv_fields "" fs0
    refine ⟨fs', ?_, hid⟩
    have hbs : baseStage fsys defaultOpts (.vptr (.vstruct fs0) false) =
        (.vptr (.vstruct fs0) false, false, none) := by
      simp [baseStage, defaultOpts]
    have hfs : filesStage fsys defaultOpts (.vptr (.vstruct fs0) false) =
        (.vptr (.vstruct fs0) false, false, none) := by
      simp [filesStage, defaultOpts]
    have hen : applyEnvOverrides (fun _ => none) (.vptr (.vstruct fs0) false)
        defaultOpts.envPfx = (.vptr (.vstruct fs') false, 0, none) := by
      simp [applyEnvOverrides, defaultOpts, hpass]
    simp [Load, List.foldl_nil, hbs, hfs, hen]

theorem load_nosources_characterization_witness :
    ∃ fs', Load (fun _ => ReadRes.notExist) (fun _ => none)
        (some (.vptr (.vstruct [.mk "Server" "" "" "" "" "" true (.vstr "")]) false)) [] =
      ⟨some (.vptr (.vstruct fs') false), some .noSources⟩ ∧
      (noPtrStructFields [.mk "Server" "" "" "" "" "" true (.vstr "")] = true →
        fs' = [.mk "Server" "" "" "" "" "" true (.vstr "")]) :=
  load_nosources_characterization.2 (fun _ => ReadRes.notExist)
    [.mk "Server" "" "" "" "" "" true (.vstr "")]

/-! ### Unsupported kinds abort the binder pass -/

theorem setStructFieldsFromEnv_append (env : String → Option String) (pfx : String) :
    ∀ (pre : List CField) (xs : List CField) (pre2 : List CField) (n : Nat),
      setStructFieldsFromEnv env pfx pre = (pre2, n, none) →
      setStructFieldsFromEnv env pfx (pre ++ xs) =
        (pre2 ++ (setStructFieldsFromEnv env pfx xs).1,
          n + (setStructFieldsFromEnv env pfx xs).2.1,
          (setStructFieldsFromEnv env pfx xs).2.2) := by
  intro pre
  induction pre with
  | nil =>
      intro xs pre2 n h
      rw [setStructFieldsFromEnv] at h
      obtain ⟨h1, h2, -⟩ : [] = pre2 ∧ 0 = n ∧ (none : Option LoadErr) = none := by
        refine ⟨?_, ?_, rfl⟩ <;> cases h <;> rfl
      subst h1; subst h2
      simp
  | cons f rest ih =>
      intro xs pre2 n h
      rw [setStructFieldsFromEnv_cons] at h
      rcases hstep : setStructFieldFromEnv env pfx f with ⟨f1, n1, e1⟩
      rw [hstep] at h
      cases e1 with
      | some e2 => exact absurd (congrArg (fun t => t.2.2) h) (by simp)
      | none =>
          rcases hrest : setStructFieldsFromEnv env pfx rest with ⟨rest2, m2, e2⟩
          rw [hrest] at h
          cases e2 with
          | some e3 => exact absurd (congrArg (fun t => t.2.2) h) (by simp)
          | none =>
              have hp : f1 :: rest2 = pre2 := congrArg (fun t => t.1) h
              have hn : n1 + m2 = n := congrArg (fun t => t.2.1) h
              subst hp; subst hn
              rw [show (f :: rest) ++ xs = f :: (rest ++ xs) from rfl]
              rw [setStructFieldsFromEnv_cons, hstep, ih xs rest2 m2 hrest]
              simp [Nat.add_assoc]

/-- C9: when the binder meets an exported field of a kind it cannot
coerce (a slice or map field) whose derived key is present in the
environment, the whole pass aborts with an "unsupported kind" error:
the faulting field and every field after it are left untouched, the
applied count keeps only the earlier fields, and a Load call with such
a record fails with that error. -/
theorem unsupported_kind_aborts (env : String → Option String) (pfx : String)
    (pre : List CField) (f : CField) (post : List CField) (pre2 : List CField)
    (n : Nat) (key value : String)
    (hpre : setStructFieldsFromEnv env pfx pre = (pre2, n, none))
    (hex : f.exported = true) (hk : envKey f pfx = some key)
    (henv : env key = some value) (hkind : f.val = .vlist ∨ f.val = .vmap) :
    setStructFieldsFromEnv env pfx (pre ++ f :: post) =
      (pre2 ++ f :: post, n,
        some (.setErr key ("unsupported kind " ++ kindName f.val))) ∧
    (pfx = "" →
      ∀ fsys, Load fsys env (some (.vptr (.vstruct (pre ++ f :: post)) false)) [] =
        ⟨some (.vptr (.vstruct (pre2 ++ f :: post)) false),
          some (.setErr key ("unsupported kind " ++ kindName f.val))⟩) := by
  have hstep : setStructFieldFromEnv env pfx f =
      (f, 0, some (.setErr key ("unsupported kind " ++ kindName f.val))) := by
    cases f with
    | mk nm et kt jt yt tt ex v =>
        have hex' : ex = true := hex
        subst hex'
        rcases hkind with hv | hv
        · simp only [CField.val] at hv
          subst hv
          rw [setStructFieldFromEnv_leaf_key env pfx nm et kt jt yt tt .vlist (by decide)
            key hk, henv]
          rfl
        · simp only [CField.val] at hv
          subst hv
          rw [setStructFieldFromEnv_leaf_key env pfx nm et kt jt yt tt .vmap (by decide)
            key hk, henv]
          rfl
  have hcons : setStructFieldsFromEnv env pfx (f :: post) =
      (f :: post, 0, some (.setErr key ("unsupported kind " ++ kindName f.val))) := by
    rw [setStructFieldsFromEnv_cons, hstep]
  have hmain := setStructFieldsFromEnv_append env pfx pre (f :: post) pre2 n hpre
  rw [hcons] at hmain
  refine ⟨by simpa using hmain, ?_⟩
  intro hpfx fsys
  subst hpfx
  have hbs : baseStage fsys defaultOpts (.vptr (.vstruct (pre ++ f :: post)) false) =
      (.vptr (.vstruct (pre ++ f :: post)) false, false, none) := by
    simp [baseStage, defaultOpts]
  have hfs : filesStage fsys defaultOpts (.vptr (.vstruct (pre ++ f :: post)) false) =
      (.vptr (.vstruct (pre ++ f :: post)) false, false, none) := by
    simp [filesStage, defaultOpts]
  have hpass : setStructFieldsFromEnv env "" (pre ++ f :: post) =
      (pre2 ++ f :: post, n,
        some (.setErr key ("unsupported kind " ++ kindName f.val))) := by
    simpa using hmain
  have hen : applyEnvOverrides env (.vptr (.vstruct (pre ++ f :: post)) false)
      defaultOpts.envPfx =
      (.vptr (.vstruct (pre2 ++ f :: post)) false, n,
        some (.setErr key ("unsupported kind " ++ kindName f.val))) := by
    simp [applyEnvOverrides, show defaultOpts.envPfx = "" from rfl, hpass]
  simp [Load, List.foldl_nil, hbs, hfs, hen]

theorem unsupported_kind_aborts_witness :
    setStructFieldsFromEnv (fun k => if k = "ITEMS" then some "x" else none) ""
        ([] ++ (.mk "Items" "" "" "" "" "" true .vlist) :: [.mk "After" "" "" "" "" "" true (.vstr "old")]) =
      ([] ++ (.mk "Items" "" "" "" "" "" true .vlist) :: [.mk "After" "" "" "" "" "" true (.vstr "old")], 0,
        some (.setErr "ITEMS" ("unsupported kind " ++ kindName (.vlist)))) :=
  (unsupported_kind_aborts (fun k => if k = "ITEMS" then some "x" else none) "" []
    (.mk "Items" "" "" "" "" "" true .vlist) [.mk "After" "" "" "" "" "" true (.vstr "old")]
    [] 0 "ITEMS" "x" (by rw [setStructFieldsFromEnv]) rfl (by decide) (by decide)
    (Or.inl rfl)).1

/-! ### Pointer-to-struct allocation behaviour -/

/-- C4 counterexample: a nil pointer-to-struct field is allocated as
soon as the traversal reaches it, even when none of its descendants
receives a value.  Here only the sibling field A is set from the
environment, yet after a successful Load the field Inner is a non-nil
pointer to a zeroed struct instead of remaining nil. -/
theorem ptr_allocated_without_descendants_counterexample :
    Load (fun _ => .notExist) (fun k => if k = "A" then some "x" else none)
        (some (.vptr (.vstruct
          [.mk "A" "" "" "" "" "" true (.vstr ""),
           .mk "Inner" "" "" "" "" "" true
             (.vptr (.vstruct [.mk "Value" "" "" "" "" "" true (.vstr "")]) true)])
          false)) [] =
      ⟨some (.vptr (.vstruct
          [.mk "A" "" "" "" "" "" true (.vstr "x"),
           .mk "Inner" "" "" "" "" "" true
             (.vptr (.vstruct [.mk "Value" "" "" "" "" "" true (.vstr "")]) false)])
          false), none⟩ := by
  simp +decide [Load, baseStage, filesStage, applyEnvOverrides, setStructFieldsFromEnv,
    setStructFieldFromEnv, envKey, toEnvKey, defaultOpts, trimSpace, firstNonEmptyTagValue,
    tagLookup, splitCommaHead, CField.envTag, CField.konfigTag, CField.jsonTag,
    CField.yamlTag, CField.tomlTag, CField.name, toEnvKeyStep, isSepChar, goIsSpace,
    appendUnderscoreRev, isBoundary, goIsLower, goIsUpper, goIsDigit, goToUpper,
    collapseUnderscores, collapseAux, trimTrailingUnderscores, zeroOfFields, zeroOfField,
    zeroOfVal, assignFromString, assignScalar]

/-- C4 (amended): a pointer-to-struct field is processed exactly once
per call; when the traversal reaches it (exported, with a usable key)
a nil pointer is allocated — unconditionally, whether or not any
descendant receives a value — and the pointer is non-nil afterwards;
a field the traversal skips (unexported, or disabled by the
skip-sentinel or an empty key) is left untouched, so only then does a
nil pointer remain nil. -/
theorem ptr_alloc_on_traversal (env : String → Option String) (pfx : String) (f : CField) :
    (∀ pfields isNil key, f.exported = true → envKey f pfx = some key →
      f.val = .vptr (.vstruct pfields) isNil →
      ∃ inner2 n e,
        setStructFieldFromEnv env pfx f =
          (f.withVal (.vptr (.vstruct inner2) false), n, e) ∧
        setStructFieldsFromEnv env key
          (if isNil then zeroOfFields pfields else pfields) = (inner2, n, e)) ∧
    (f.exported = false ∨ envKey f pfx = none →
      setStructFieldFromEnv env pfx f = (f, 0, none)) := by
  constructor
  · intro pfields isNil key hex hk hv
    cases f with
    | mk nm et kt jt yt tt ex v =>
        have hex' : ex = true := hex
        subst hex'
        simp only [CField.val] at hv
        subst hv
        rcases hi : setStructFieldsFromEnv env key
            (if isNil then zeroOfFields pfields else pfields) with ⟨inner2, n, e⟩
        refine ⟨inner2, n, e, ?_, rfl⟩
        rw [setStructFieldFromEnv_ptr_key env pfx nm et kt jt yt tt pfields isNil key hk
          inner2 n e hi]
        rfl
  · exact setStructFieldFromEnv_skip env pfx f

theorem ptr_alloc_on_traversal_witness :
    ∃ inner2 n e,
      setStructFieldFromEnv (fun _ => none) ""
          (.mk "Inner" "" "" "" "" "" true
            (.vptr (.vstruct [.mk "Value" "" "" "" "" "" true (.vstr "")]) true)) =
        ((CField.mk "Inner" "" "" "" "" "" true
            (.vptr (.vstruct [.mk "Value" "" "" "" "" "" true (.vstr "")]) true)).withVal
          (.vptr (.vstruct inner2) false), n, e) ∧
      setStructFieldsFromEnv (fun _ => none) "INNER"
          (if true then zeroOfFields [.mk "Value" "" "" "" "" "" true (.vstr "")]
           else [.mk "Value" "" "" "" "" "" true (.vstr "")]) = (inner2, n, e) :=
  (ptr_alloc_on_traversal (fun _ => none) ""
      (.mk "Inner" "" "" "" "" "" true
        (.vptr (.vstruct [.mk "Value" "" "" "" "" "" true (.vstr "")]) true))).1
    [.mk "Value" "" "" "" "" "" true (.vstr "")] true "INNER" rfl (by decide) rfl

/-! ### Environment values win ties: path-level soundness -/

/-- A scalar value holds the coercion of the string s. -/
def CoercesScalar (s : String) : CVal → Prop
  | .vstr v => v = s
  | .vbool b => parseBool s = some b
  | .vint bits n => parseInt s bits = some n
  | .vuint bits n => parseUint s bits = some n
  | _ => False

/-- A field value holds the coerced environment value s: either a
scalar coercion of s, or a non-nil pointer whose pointee is. -/
def Coerces (s : String) : CVal → Prop
  | .vptr p isNil => isNil = false ∧ CoercesScalar s p
  | v => CoercesScalar s v

/-- Field reached by a path of indices, descending through struct and
non-nil pointer-to-struct fields. -/
def fieldAtPath : List CField → List Nat → Option CField
  | _, [] => none
  | fs, [i] => fs[i]?
  | fs, i :: rest =>
      match fs[i]? with
      | none => none
      | some f =>
          match f.val with
          | .vstruct inner => fieldAtPath inner rest
          | .vptr (.vstruct inner) false => fieldAtPath inner rest
          | _ => none

/-- Environment key accumulated along a path: every field on the path
must be exported with a usable key, and the prefix grows exactly as
the binder grows it. -/
def keyAtPath (pfx : String) : List CField → List Nat → Option String
  | _, [] => none
  | fs, [i] =>
      match fs[i]? with
      | none => none
      | some f => if f.exported then envKey f pfx else none
  | fs, i :: rest =>
      match fs[i]? with
      | none => none
      | some f =>
          if f.exported then
            match envKey f pfx with
            | none => none
            | some k =>
                match f.val with
                | .vstruct inner => keyAtPath k inner rest
                | .vptr (.vstruct inner) false => keyAtPath k inner rest
                | _ => none
          else none

theorem CField.envTag_withVal (f : CField) (x : CVal) :
    (f.withVal x).envTag = f.envTag := by cases f; rfl

theorem CField.exported_withVal (f : CField) (x : CVal) :
    (f.withVal x).exported = f.exported := by cases f; rfl

theorem CField.val_withVal (f : CField) (x : CVal) : (f.withVal x).val = x := by
  cases f; rfl

theorem tagLookup_withVal (f : CField) (x : CVal) (nm : String) :
    tagLookup (f.withVal x) nm = tagLookup f nm := by cases f; rfl

theorem firstNonEmptyTagValue_withVal (f : CField) (x : CVal) (names : List String) :
    firstNonEmptyTagValue (f.withVal x) names = firstNonEmptyTagValue f names := by
  induction names with
  | nil => rfl
  | cons nm rest ih => simp [firstNonEmptyTagValue, tagLookup_withVal, ih]

theorem envKey_withVal (f : CField) (x : CVal) (pfx : String) :
    envKey (f.withVal x) pfx = envKey f pfx := by
  simp [envKey, CField.envTag_withVal, CField.name_withVal, firstNonEmptyTagValue_withVal]

theorem assignScalar_coerces (v : CVal) (s : String) (v2 : CVal)
    (h : assignScalar v s = (v2, none)) : CoercesScalar s v2 := by
  cases v with
  | vstr t => cases h; rfl
  | vbool b =>
      cases hp : parseBool s with
      | some x => rw [assignScalar, hp] at h; cases h; simpa [CoercesScalar] using hp
      | none => rw [assignScalar, hp] at h; cases h
  | vint bits old =>
      cases hp : parseInt s bits with
      | some x => rw [assignScalar, hp] at h; cases h; simpa [CoercesScalar] using hp
      | none => rw [assignScalar, hp] at h; cases h
  | vuint bits old =>
      cases hp : parseUint s bits with
      | some x => rw [assignScalar, hp] at h; cases h; simpa [CoercesScalar] using hp
      | none => rw [assignScalar, hp] at h; cases h
  | vlist => cases h
  | vmap => cases h
  | vstruct fs => cases h
  | vptr p b => cases h

theorem coercesScalar_coerces (s : String) (v : CVal) (h : CoercesScalar s v) :
    Coerces s v := by
  cases v <;> simpa [Coerces, CoercesScalar] using h

theorem assignFromString_coerces (v : CVal) (s : String) (v2 : CVal)
    (h : assignFromString v s = (v2, none)) : Coerces s v2 := by
  cases v with
  | vptr p isNil =>
      rcases ha : assignScalar (if isNil then zeroOfVal p else p) s with ⟨p2, e2⟩
      rw [assignFromString, ha] at h
      cases e2 with
      | some m => cases h
      | none =>
          cases h
          exact ⟨rfl, assignScalar_coerces _ s p2 ha⟩
  | vstr t =>
      have h2 : assignScalar (.vstr t) s = (v2, none) := h
      cases h2
      exact coercesScalar_coerces s _ rfl
  | vbool b =>
      have h2 : assignScalar (.vbool b) s = (v2, none) := h
      exact coercesScalar_coerces s v2 (assignScalar_coerces _ s v2 h2)
  | vint bits old =>
      have h2 : assignScalar (.vint bits old) s = (v2, none) := h
      exact coercesScalar_coerces s v2 (assignScalar_coerces _ s v2 h2)
  | vuint bits old =>
      have h2 : assignScalar (.vuint bits old) s = (v2, none) := h
      exact coercesScalar_coerces s v2 (assignScalar_coerces _ s v2 h2)
  | vlist =>
      have h2 : assignScalar .vlist s = (v2, none) := h
      exact coercesScalar_coerces s v2 (assignScalar_coerces _ s v2 h2)
  | vmap =>
      have h2 : assignScalar .vmap s = (v2, none) := h
      exact coercesScalar_coerces s v2 (assignScalar_coerces _ s v2 h2)
  | vstruct fs =>
      have h2 : assignScalar (.vstruct fs) s = (v2, none) := h
      exact coercesScalar_coerces s v2 (assignScalar_coerces _ s v2 h2)

theorem coerces_shape (s : String) (v : CVal) (h : Coerces s v) :
    (∀ inner, v ≠ .vstruct inner) ∧ (∀ inner b, v ≠ .vptr (.vstruct inner) b) := by
  cases v with
  | vstruct fs => exact absurd h (by simp [Coerces, CoercesScalar])
  | vptr p b =>
      refine ⟨by simp, ?_⟩
      intro inner bb hh
      cases hh
      exact h.2
  | vstr t => exact ⟨by simp, by simp⟩
  | vbool b => exact ⟨by simp, by simp⟩
  | vint bits n => exact ⟨by simp, by simp⟩
  | vuint bits n => exact ⟨by simp, by simp⟩
  | vlist => exact ⟨by simp, by simp⟩
  | vmap => exact ⟨by simp, by simp⟩

theorem not_leaf_shape (v : CVal) (h : isEnvLeaf v = false) :
    (∃ inner, v = .vstruct inner) ∨ ∃ pfs b, v = .vptr (.vstruct pfs) b := by
  cases v with
  | vstruct fs => exact Or.inl ⟨fs, rfl⟩
  | vptr p b =>
      cases p with
      | vstruct pfs => exact Or.inr ⟨pfs, b, rfl⟩
      | vstr s => simp [isEnvLeaf] at h
      | vbool b2 => simp [isEnvLeaf] at h
      | vint bs i => simp [isEnvLeaf] at h
      | vuint bs u => simp [isEnvLeaf] at h
      | vlist => simp [isEnvLeaf] at h
      | vmap => simp [isEnvLeaf] at h
      | vptr q b2 => simp [isEnvLeaf] at h
  | vstr s => simp [isEnvLeaf] at h
  | vbool b => simp [isEnvLeaf] at h
  | vint bs i => simp [isEnvLeaf] at h
  | vuint bs u => simp [isEnvLeaf] at h
  | vlist => simp [isEnvLeaf] at h
  | vmap => simp [isEnvLeaf] at h

theorem step_leaf_cases (env : String → Option String) (pfx : String)
    (nm et kt jt yt tt : String) (v : CVal) (hleaf : isEnvLeaf v = true) (key : String)
    (hk : envKey (.mk nm et kt jt yt tt true v) pfx = some key) (f2 : CField) (n : Nat)
    (h : setStructFieldFromEnv env pfx (.mk nm et kt jt yt tt true v) = (f2, n, none)) :
    (env key = none ∧ f2 = .mk nm et kt jt yt tt true v ∧ n = 0) ∨
    (∃ s v2, env key = some s ∧ assignFromString v s = (v2, none) ∧
      f2 = .mk nm et kt jt yt tt true v2 ∧ n = 1) := by
  rw [setStructFieldFromEnv_leaf_key env pfx nm et kt jt yt tt v hleaf key hk] at h
  cases henv : env key with
  | none =>
      rw [henv] at h
      have h2 : ((CField.mk nm et kt jt yt tt true v), 0, (none : Option LoadErr)) =
          (f2, n, none) := h
      injection h2 with ha hb
      injection hb with hb1 hb2
      exact Or.inl ⟨rfl, ha.symm, hb1.symm⟩
  | some value =>
      rw [henv] at h
      have h2 : (match assignFromString v value with
          | (v2, some msg) =>
              ((CField.mk nm et kt jt yt tt true v2 : CField), 0,
                some (LoadErr.setErr key msg))
          | (v2, none) =>
              (CField.mk nm et kt jt yt tt true v2, 1, (none : Option LoadErr))) =
          (f2, n, none) := h
      rcases ha : assignFromString v value with ⟨v2, e2⟩
      rw [ha] at h2
      cases e2 with
      | some msg =>
          injection h2 with ha2 hb
          injection hb with hb1 hb2
          exact Option.noConfusion hb2
      | none =>
          injection h2 with ha2 hb
          injection hb with hb1 hb2
          exact Or.inr ⟨value, v2, rfl, ha, ha2.symm, hb1.symm⟩

theorem setStructFieldFromEnv_cases (env : String → Option String) (pfx : String)
    (f f2 : CField) (n : Nat) (key : String)
    (hex : f.exported = true) (hk : envKey f pfx = some key)
    (h : setStructFieldFromEnv env pfx f = (f2, n, none)) :
    (isEnvLeaf f.val = true ∧
      ((env key = none ∧ f2 = f ∧ n = 0) ∨
        (∃ s v2, env key = some s ∧ assignFromString f.val s = (v2, none) ∧
          f2 = f.withVal v2 ∧ n = 1))) ∨
    (∃ inner inner2, f.val = .vstruct inner ∧
      setStructFieldsFromEnv env key inner = (inner2, n, none) ∧
      f2 = f.withVal (.vstruct inner2)) ∨
    (∃ pfields isNil inner2, f.val = .vptr (.vstruct pfields) isNil ∧
      setStructFieldsFromEnv env key (if isNil then zeroOfFields pfields else pfields) =
        (inner2, n, none) ∧
      f2 = f.withVal (.vptr (.vstruct inner2) false)) := by
  cases f with
  | mk nm et kt jt yt tt ex v =>
      have hex' : ex = true := hex
      subst hex'
      by_cases hleaf : isEnvLeaf v = true
      · rcases step_leaf_cases env pfx nm et kt jt yt tt v hleaf key hk f2 n h with
          ⟨h1, h2, h3⟩ | ⟨s, v2, h1, h2, h3, h4⟩
        · exact Or.inl ⟨hleaf, Or.inl ⟨h1, h2, h3⟩⟩
        · exact Or.inl ⟨hleaf, Or.inr ⟨s, v2, h1, h2, h3, h4⟩⟩
      · have hleaf' : isEnvLeaf v = false := by revert hleaf; cases isEnvLeaf v <;> simp
        rcases not_leaf_shape v hleaf' with ⟨inner, rfl⟩ | ⟨pfields, isNil, rfl⟩
        · rcases hi : setStructFieldsFromEnv env key inner with ⟨inner2, ni, ei⟩
          rw [setStructFieldFromEnv_struct_key env pfx nm et kt jt yt tt inner key hk
            inner2 ni ei hi] at h
          injection h with ha hb
          injection hb with hb1 hb2
          subst hb1
          subst hb2
          exact Or.inr (Or.inl ⟨inner, inner2, rfl, hi, ha.symm⟩)
        · rcases hi : setStructFieldsFromEnv env key
              (if isNil then zeroOfFields pfields else pfields) with ⟨inner2, ni, ei⟩
          rw [setStructFieldFromEnv_ptr_key env pfx nm et kt jt yt tt pfields isNil key hk
            inner2 ni ei hi] at h
          injection h with ha hb
          injection hb with hb1 hb2
          subst hb1
          subst hb2
          exact Or.inr (Or.inr ⟨pfields, isNil, inner2, rfl, hi, ha.symm⟩)

theorem setStructFieldsFromEnv_index (env : String → Option String) (pfx : String) :
    ∀ (fs fs2 : List CField) (n : Nat),
      setStructFieldsFromEnv env pfx fs = (fs2, n, none) →
      ∀ (i : Nat) (f2 : CField), fs2[i]? = some f2 →
      ∃ f1 n1, fs[i]? = some f1 ∧ setStructFieldFromEnv env pfx f1 = (f2, n1, none) := by
  intro fs
  induction fs with
  | nil =>
      intro fs2 n h i f2 h2
      rw [setStructFieldsFromEnv] at h
      have h1 : ([] : List CField) = fs2 := congrArg (fun t => t.1) h
      subst h1
      simp at h2
  | cons f rest ih =>
      intro fs2 n h i f2 h2
      rw [setStructFieldsFromEnv_cons] at h
      rcases hstep : setStructFieldFromEnv env pfx f with ⟨f1, n1, e1⟩
      rw [hstep] at h
      cases e1 with
      | some e2 => exact absurd (congrArg (fun t => t.2.2) h) (by simp)
      | none =>
          rcases hrest : setStructFieldsFromEnv env pfx rest with ⟨rest2, m2, e2⟩
          rw [hrest] at h
          cases e2 with
          | some e3 => exact absurd (congrArg (fun t => t.2.2) h) (by simp)
          | none =>
              have hf : f1 :: rest2 = fs2 := congrArg (fun t => t.1) h
              subst hf
              cases i with
              | zero =>
                  simp at h2
                  subst h2
                  exact ⟨f, n1, by simp, hstep⟩
              | succ j =>
                  simp at h2
                  obtain ⟨g1, ng, hg1, hg2⟩ := ih rest2 m2 hrest j f2 h2
                  exact ⟨g1, ng, by simpa using hg1, hg2⟩

theorem CField.withVal_val (f : CField) : f.withVal f.val = f := by cases f; rfl

theorem setStructFieldFromEnv_withVal (env : String → Option String) (pfx : String)
    (f f2 : CField) (n : Nat) (e : Option LoadErr)
    (h : setStructFieldFromEnv env pfx f = (f2, n, e)) : ∃ v2, f2 = f.withVal v2 := by
  cases f with
  | mk nm et kt jt yt tt ex v =>
      by_cases hex : ex = false
      · subst hex
        rw [setStructFieldFromEnv_skip env pfx (.mk nm et kt jt yt tt false v)
          (Or.inl rfl)] at h
        exact ⟨v, by injection h with h1 _; rw [← h1]; rfl⟩
      · have hex' : ex = true := by revert hex; cases ex <;> simp
        subst hex'
        cases hk : envKey (.mk nm et kt jt yt tt true v) pfx with
        | none =>
            rw [setStructFieldFromEnv_skip env pfx _ (Or.inr hk)] at h
            exact ⟨v, by injection h with h1 _; rw [← h1]; rfl⟩
        | some key =>
            by_cases hleaf : isEnvLeaf v = true
            · rw [setStructFieldFromEnv_leaf_key env pfx nm et kt jt yt tt v hleaf key hk]
                at h
              cases henv : env key with
              | none =>
                  rw [henv] at h
                  have h2 : ((CField.mk nm et kt jt yt tt true v), 0,
                      (none : Option LoadErr)) = (f2, n, e) := h
                  exact ⟨v, by injection h2 with h1 _; rw [← h1]; rfl⟩
              | some value =>
                  rw [henv] at h
                  have h2 : (match assignFromString v value with
                      | (v2, some msg) =>
                          ((CField.mk nm et kt jt yt tt true v2 : CField), 0,
                            some (LoadErr.setErr key msg))
                      | (v2, none) =>
                          (CField.mk nm et kt jt yt tt true v2, 1,
                            (none : Option LoadErr))) = (f2, n, e) := h
                  rcases ha : assignFromString v value with ⟨v2, e2⟩
                  rw [ha] at h2
                  cases e2 with
                  | some msg => exact ⟨v2, by injection h2 with h1 _; rw [← h1]; rfl⟩
                  | none => exact ⟨v2, by injection h2 with h1 _; rw [← h1]; rfl⟩
            · have hleaf' : isEnvLeaf v = false := by
                revert hleaf; cases isEnvLeaf v <;> simp
              rcases not_leaf_shape v hleaf' with ⟨inner, rfl⟩ | ⟨pfields, isNil, rfl⟩
              · rcases hi : setStructFieldsFromEnv env key inner with ⟨inner2, ni, ei⟩
                rw [setStructFieldFromEnv_struct_key env pfx nm et kt jt yt tt inner key
                  hk inner2 ni ei hi] at h
                exact ⟨.vstruct inner2, by injection h with h1 _; rw [← h1]; rfl⟩
              · rcases hi : setStructFieldsFromEnv env key
                    (if isNil then zeroOfFields pfields else pfields) with ⟨inner2, ni, ei⟩
                rw [setStructFieldFromEnv_ptr_key env pfx nm et kt jt yt tt pfields isNil
                  key hk inner2 ni ei hi] at h
                exact ⟨.vptr (.vstruct inner2) false,
                  by injection h with h1 _; rw [← h1]; rfl⟩

theorem keyAtPath_cons (pfx : String) (fs2 : List CField) (i j : Nat)
    (rest2 : List Nat) (k : String) (h : keyAtPath pfx fs2 (i :: j :: rest2) = some k) :
    ∃ f0 k0 inner2, fs2[i]? = some f0 ∧ f0.exported = true ∧ envKey f0 pfx = some k0 ∧
      (f0.val = .vstruct inner2 ∨ f0.val = .vptr (.vstruct inner2) false) ∧
      keyAtPath k0 inner2 (j :: rest2) = some k := by
  cases hidx : fs2[i]? with
  | none => simp [keyAtPath, hidx] at h
  | some f0 =>
      by_cases hex : f0.exported = true
      · cases hk0 : envKey f0 pfx with
        | none => simp [keyAtPath, hidx, hex, hk0] at h
        | some k0 =>
            cases hv : f0.val with
            | vstruct inner =>
                refine ⟨f0, k0, inner, rfl, hex, hk0, Or.inl hv, ?_⟩
                simpa [keyAtPath, hidx, hex, hk0, hv] using h
            | vptr p b =>
                cases p with
                | vstruct inner =>
                    cases b with
                    | false =>
                        refine ⟨f0, k0, inner, rfl, hex, hk0, Or.inr hv, ?_⟩
                        simpa [keyAtPath, hidx, hex, hk0, hv] using h
                    | true => simp [keyAtPath, hidx, hex, hk0, hv] at h
                | vstr s => simp [keyAtPath, hidx, hex, hk0, hv] at h
                | vbool b2 => simp [keyAtPath, hidx, hex, hk0, hv] at h
                | vint bs i2 => simp [keyAtPath, hidx, hex, hk0, hv] at h
                | vuint bs u => simp [keyAtPath, hidx, hex, hk0, hv] at h
                | vlist => simp [keyAtPath, hidx, hex, hk0, hv] at h
                | vmap => simp [keyAtPath, hidx, hex, hk0, hv] at h
                | vptr q b2 => simp [keyAtPath, hidx, hex, hk0, hv] at h
            | vstr s => simp [keyAtPath, hidx, hex, hk0, hv] at h
            | vbool b => simp [keyAtPath, hidx, hex, hk0, hv] at h
            | vint bs i2 => simp [keyAtPath, hidx, hex, hk0, hv] at h
            | vuint bs u => simp [keyAtPath, hidx, hex, hk0, hv] at h
            | vlist => simp [keyAtPath, hidx, hex, hk0, hv] at h
            | vmap => simp [keyAtPath, hidx, hex, hk0, hv] at h
      · simp [keyAtPath, hidx, hex] at h

theorem fieldAtPath_cons (fs2 : List CField) (i j : Nat) (rest2 : List Nat) (f : CField)
    (h : fieldAtPath fs2 (i :: j :: rest2) = some f) :
    ∃ f0 inner2, fs2[i]? = some f0 ∧
      (f0.val = .vstruct inner2 ∨ f0.val = .vptr (.vstruct inner2) false) ∧
      fieldAtPath inner2 (j :: rest2) = some f := by
  cases hidx : fs2[i]? with
  | none => simp [fieldAtPath, hidx] at h
  | some f0 =>
      cases hv : f0.val with
      | vstruct inner =>
          refine ⟨f0, inner, rfl, Or.inl hv, ?_⟩
          simpa [fieldAtPath, hidx, hv] using h
      | vptr p b =>
          cases p with
          | vstruct inner =>
              cases b with
              | false =>
                  refine ⟨f0, inner, rfl, Or.inr hv, ?_⟩
                  simpa [fieldAtPath, hidx, hv] using h
              | true => simp [fieldAtPath, hidx, hv] at h
          | vstr s => simp [fieldAtPath, hidx, hv] at h
          | vbool b2 => simp [fieldAtPath, hidx, hv] at h
          | vint bs i2 => simp [fieldAtPath, hidx, hv] at h
          | vuint bs u => simp [fieldAtPath, hidx, hv] at h
          | vlist => simp [fieldAtPath, hidx, hv] at h
          | vmap => simp [fieldAtPath, hidx, hv] at h
          | vptr q b2 => simp [fieldAtPath, hidx, hv] at h
      | vstr s => simp [fieldAtPath, hidx, hv] at h
      | vbool b => simp [fieldAtPath, hidx, hv] at h
      | vint bs i2 => simp [fieldAtPath, hidx, hv] at h
      | vuint bs u => simp [fieldAtPath, hidx, hv] at h
      | vlist => simp [fieldAtPath, hidx, hv] at h
      | vmap => simp [fieldAtPath, hidx, hv] at h

/-- Soundness of the binder along a path: after an error-free pass,
every leaf field reachable through exported fields with usable keys
whose accumulated key is present in the environment holds the coerced
environment value. -/
theorem env_pass_coerces (env : String → Option String) :
    ∀ (path : List Nat) (pfx : String) (fs fs2 : List CField) (n : Nat),
      setStructFieldsFromEnv env pfx fs = (fs2, n, none) →
      ∀ (k : String) (f : CField) (s : String),
        keyAtPath pfx fs2 path = some k →
        fieldAtPath fs2 path = some f →
        isEnvLeaf f.val = true →
        env k = some s →
        Coerces s f.val := by
  intro path
  induction path with
  | nil =>
      intro pfx fs fs2 n hp k f s hk hf hleaf henv
      simp [keyAtPath] at hk
  | cons i rest ih =>
      intro pfx fs fs2 n hp k f s hk hf hleaf henv
      cases rest with
      | nil =>
          cases hidx : fs2[i]? with
          | none => simp [keyAtPath, hidx] at hk
          | some f0 =>
              have hf0 : f0 = f := by simpa [fieldAtPath, hidx] using hf
              subst hf0
              by_cases hex : f0.exported = true
              · have hkk : envKey f0 pfx = some k := by
                  simpa [keyAtPath, hidx, hex] using hk
                obtain ⟨f1, n1, hf1, hstep⟩ :=
                  setStructFieldsFromEnv_index env pfx fs fs2 n hp i f0 hidx
                obtain ⟨v2, hv2⟩ :=
                  setStructFieldFromEnv_withVal env pfx f1 f0 n1 none hstep
                have hex1 : f1.exported = true := by
                  rw [hv2] at hex; simpa [CField.exported_withVal] using hex
                have hk1 : envKey f1 pfx = some k := by
                  rw [hv2] at hkk; simpa [envKey_withVal] using hkk
                rcases setStructFieldFromEnv_cases env pfx f1 f0 n1 k hex1 hk1 hstep with
                  ⟨hl1, ⟨hnone, _, _⟩ | ⟨s2, w2, hsome, hassign, hf0eq, _⟩⟩ |
                  ⟨inner, inner2, hval, _, hf0eq⟩ |
                  ⟨pfields, isNil, inner2, hval, _, hf0eq⟩
                · rw [hnone] at henv; cases henv
                · have hs2 : s2 = s := by
                    rw [hsome] at henv; exact Option.some.inj henv
                  subst hs2
                  have : f0.val = w2 := by rw [hf0eq, CField.val_withVal]
                  rw [this]
                  exact assignFromString_coerces f1.val s2 w2 hassign
                · have : f0.val = .vstruct inner2 := by rw [hf0eq, CField.val_withVal]
                  rw [this] at hleaf
                  simp [isEnvLeaf] at hleaf
                · have : f0.val = .vptr (.vstruct inner2) false := by
                    rw [hf0eq, CField.val_withVal]
                  rw [this] at hleaf
                  simp [isEnvLeaf] at hleaf
              · simp [keyAtPath, hidx, hex] at hk
      | cons j rest2 =>
          obtain ⟨f0, k0, innerK, hidx, hex, hk0, hshape, hkrec⟩ := keyAtPath_cons
            pfx fs2 i j rest2 k hk
          obtain ⟨f0b, innerF, hidxb, hshapeb, hfrec⟩ := fieldAtPath_cons
            fs2 i j rest2 f hf
          have hff : f0 = f0b := by
            rw [hidx] at hidxb
            exact Option.some.inj hidxb
          subst hff
          have hinner : innerK = innerF := by
            rcases hshape with hv | hv
            · rcases hshapeb with hv2 | hv2
              · rw [hv] at hv2
                injection hv2 with h3
                all_goals exact h3
              · rw [hv] at hv2; cases hv2
            · rcases hshapeb with hv2 | hv2
              · rw [hv] at hv2; cases hv2
              · rw [hv] at hv2
                injection hv2 with h3 h4
                all_goals injection h3 with h5
                all_goals exact h5
          rw [← hinner] at hfrec
          obtain ⟨f1, n1, hf1, hstep⟩ :=
            setStructFieldsFromEnv_index env pfx fs fs2 n hp i f0 hidx
          obtain ⟨v2, hv2⟩ := setStructFieldFromEnv_withVal env pfx f1 f0 n1 none hstep
          have hex1 : f1.exported = true := by
            rw [hv2] at hex; simpa [CField.exported_withVal] using hex
          have hk1 : envKey f1 pfx = some k0 := by
            rw [hv2] at hk0; simpa [envKey_withVal] using hk0
          rcases setStructFieldFromEnv_cases env pfx f1 f0 n1 k0 hex1 hk1 hstep with
            ⟨hl1, ⟨hnone, hid, _⟩ | ⟨s2, w2, hsome, hassign, hf0eq, _⟩⟩ |
            ⟨inner, inner2, hval, hpass2, hf0eq⟩ |
            ⟨pfields, isNil, inner2, hval, hpass2, hf0eq⟩
          · -- untouched leaf field cannot have the struct shape required by the path
            have hl0 : isEnvLeaf f0.val = true := by rw [hid]; exact hl1
            rcases hshape with hv | hv <;> rw [hv] at hl0 <;> simp [isEnvLeaf] at hl0
          · -- a freshly assigned leaf value cannot have the struct shape either
            have hco := assignFromString_coerces f1.val s2 w2 hassign
            have hsh := coerces_shape s2 w2 hco
            have hw : f0.val = w2 := by rw [hf0eq, CField.val_withVal]
            rcases hshape with hv | hv
            · exact absurd (hw.symm.trans hv) (hsh.1 innerK)
            · exact absurd (hw.symm.trans hv) (hsh.2 innerK false)
          · -- struct field: recurse
            have hw : f0.val = .vstruct inner2 := by rw [hf0eq, CField.val_withVal]
            rcases hshape with hv | hv
            · have : inner2 = innerK := by
                have := hw.symm.trans hv
                injection this
              subst this
              exact ih k0 inner inner2 n1 hpass2 k f s hkrec hfrec hleaf henv
            · exact absurd (hw.symm.trans hv) (by simp)
          · -- pointer-to-struct field: recurse into the pointee
            have hw : f0.val = .vptr (.vstruct inner2) false := by
              rw [hf0eq, CField.val_withVal]
            rcases hshape with hv | hv
            · exact absurd (hw.symm.trans hv) (by simp)
            · have : inner2 = innerK := by
                have h5 := hw.symm.trans hv
                injection h5 with h6 h7
                all_goals injection h6 with h8
                all_goals exact h8
              subst this
              exact ih k0 _ inner2 n1 hpass2 k f s hkrec hfrec hleaf henv

/-- An error-free env pass: the destination was a non-nil pointer to a
struct and the result is the rewritten struct behind the same pointer,
with the field walk succeeding. -/
theorem applyEnvOverrides_ok (env : String → Option String) (rv : CVal) (pfx : String)
    (v3 : CVal) (n : Nat) (h : applyEnvOverrides env rv pfx = (v3, n, none)) :
    ∃ fsx fs2, rv = .vptr (.vstruct fsx) false ∧ v3 = .vptr (.vstruct fs2) false ∧
      setStructFieldsFromEnv env pfx fsx = (fs2, n, none) := by
  cases rv with
  | vptr elem isNil =>
      cases isNil with
      | true => simp [applyEnvOverrides] at h
      | false =>
          cases elem with
          | vstruct fsx =>
              rcases hp : setStructFieldsFromEnv env pfx fsx with ⟨fs2, m, e⟩
              simp only [applyEnvOverrides, hp] at h
              have h4 : CVal.vptr (.vstruct fs2) false = v3 ∧ m = n ∧ e = none := by
                simpa using h
              obtain ⟨h1, h2, h3⟩ := h4
              rw [h2, h3] at hp
              exact ⟨fsx, fs2, rfl, h1.symm, hp⟩
          | vstr s => simp [applyEnvOverrides] at h
          | vbool b => simp [applyEnvOverrides] at h
          | vint bs i => simp [applyEnvOverrides] at h
          | vuint bs u => simp [applyEnvOverrides] at h
          | vlist => simp [applyEnvOverrides] at h
          | vmap => simp [applyEnvOverrides] at h
          | vptr q b2 => simp [applyEnvOverrides] at h
  | vstr s => simp [applyEnvOverrides] at h
  | vbool b => simp [applyEnvOverrides] at h
  | vint bs i => simp [applyEnvOverrides] at h
  | vuint bs u => simp [applyEnvOverrides] at h
  | vlist => simp [applyEnvOverrides] at h
  | vmap => simp [applyEnvOverrides] at h
  | vstruct fs => simp [applyEnvOverrides] at h

/-- C1: the environment binder always runs after file resolution inside
Load, so after a successful (error-free) Load the final record is the
struct produced by the env pass, and every leaf field reachable through
exported fields with usable keys whose derived environment key is
present in the environment holds the coerced environment value —
whatever any configuration file set for that field, the environment
wins the tie, for every filesystem and every order of supplied
options. -/
theorem load_env_wins (fsys : String → ReadRes) (env : String → Option String)
    (rv : CVal) (opts : List KOption) (v3 : CVal)
    (h : Load fsys env (some rv) opts = ⟨some v3, none⟩) :
    ∃ fs2, v3 = .vptr (.vstruct fs2) false ∧
      ∀ (path : List Nat) (k : String) (f : CField) (s : String),
        keyAtPath (opts.foldl applyOption defaultOpts).envPfx fs2 path = some k →
        fieldAtPath fs2 path = some f →
        isEnvLeaf f.val = true →
        env k = some s →
        Coerces s f.val := by
  cases rv with
  | vptr pointee isNil =>
      cases isNil with
      | true => simp [Load] at h
      | false =>
          rcases hbs : baseStage fsys (opts.foldl applyOption defaultOpts)
              (.vptr pointee false) with ⟨v1, l1, e1⟩
          cases e1 with
          | some e => simp [Load, hbs] at h
          | none =>
              rcases hfs : filesStage fsys (opts.foldl applyOption defaultOpts) v1 with
                ⟨v2, l2, e2⟩
              cases e2 with
              | some e => simp [Load, hbs, hfs] at h
              | none =>
                  rcases hen : applyEnvOverrides env v2
                      (opts.foldl applyOption defaultOpts).envPfx with ⟨v3x, n, e3⟩
                  cases e3 with
                  | some e => simp [Load, hbs, hfs, hen] at h
                  | none =>
                      have hv3 : v3x = v3 := by
                        simp only [Load, hbs, hfs, hen] at h
                        by_cases hcond : ¬(l1 = true ∨ l2 = true) ∧ n = 0
                        · rw [if_pos hcond] at h
                          injection h with h1 h2
                          exact Option.noConfusion h2
                        · rw [if_neg hcond] at h
                          injection h with h1 h2
                          exact Option.some.inj h1
                      subst hv3
                      obtain ⟨fsx, fs2, hv2eq, hv3eq, hpass⟩ :=
                        applyEnvOverrides_ok env v2 _ v3x n hen
                      exact ⟨fs2, hv3eq, fun path k f s hk hf hleaf henvk =>
                        env_pass_coerces env path _ fsx fs2 n hpass k f s hk hf hleaf henvk⟩
  | vstr s => simp [Load] at h
  | vbool b => simp [Load] at h
  | vint bs i => simp [Load] at h
  | vuint bs u => simp [Load] at h
  | vlist => simp [Load] at h
  | vmap => simp [Load] at h
  | vstruct fs => simp [Load] at h

/-- Filesystem of the env-wins run: a single JSON file that sets the
field Port to "fromfile". -/
def envWinsFsys : String → ReadRes := fun p =>
  if p = "app.json" then .content ⟨some [("Port", .vstr "fromfile")], none, none⟩
  else .notExist

/-- Environment of the env-wins run: PORT is set to "8080". -/
def envWinsEnv : String → Option String := fun k =>
  if k = "PORT" then some "8080" else none

/-- Destination of the env-wins run: a pointer to a struct with the
single string field Port. -/
def envWinsDest : CVal :=
  .vptr (.vstruct [.mk "Port" "" "" "" "" "" true (.vstr "")]) false

/-- Final state of the env-wins run: the file wrote "fromfile" first,
then the env binder overwrote it with "8080". -/
def envWinsFinal : CVal :=
  .vptr (.vstruct [.mk "Port" "" "" "" "" "" true (.vstr "8080")]) false

theorem envWins_load_eval :
    Load envWinsFsys envWinsEnv (some envWinsDest) [.withFiles ["app.json"]] =
      ⟨some envWinsFinal, none⟩ := by
  simp +decide [Load, envWinsFsys, envWinsEnv, envWinsDest, envWinsFinal, baseStage,
    filesStage, loadSequential, unmarshalByExtension, strToLower, filepathExt,
    filepathExtScan, goToLower, trimSpace, goIsSpace, decodeInto, applyDoc, setNamedField,
    CField.name, CField.withVal, defaultOpts, applyOption, applyEnvOverrides,
    setStructFieldsFromEnv, setStructFieldFromEnv, envKey, toEnvKey, firstNonEmptyTagValue,
    tagLookup, splitCommaHead, CField.envTag, CField.konfigTag, CField.jsonTag,
    CField.yamlTag, CField.tomlTag, toEnvKeyStep, isSepChar, appendUnderscoreRev,
    isBoundary, goIsLower, goIsUpper, goIsDigit, goToUpper, collapseUnderscores,
    collapseAux, trimTrailingUnderscores, assignFromString, assignScalar]

theorem load_env_wins_witness :
    ∃ fs2, envWinsFinal = .vptr (.vstruct fs2) false ∧
      ∀ (path : List Nat) (k : String) (f : CField) (s : String),
        keyAtPath (([KOption.withFiles ["app.json"]].foldl applyOption defaultOpts)).envPfx
          fs2 path = some k →
        fieldAtPath fs2 path = some f →
        isEnvLeaf f.val = true →
        envWinsEnv k = some s →
        Coerces s f.val :=
  load_env_wins envWinsFsys envWinsEnv envWinsDest [.withFiles ["app.json"]] envWinsFinal
    envWins_load_eval

/-! ### toEnvKey: normal form of transliterated keys (C7) -/

/-- A character that can appear in a transliterated key besides the
underscore: not a separator, not lowercase, fixed by goToUpper. -/
def GoodKeyChar (c : Char) : Bool :=
  !isSepChar c && !goIsLower c && (goToUpper c == c)

/-- Adjacent-character invariant of a transliterated key: no duplicate
underscores, and no case/digit boundary between adjacent kept
characters. -/
def KeyAdj (a b : Char) : Prop :=
  ¬(a = '_' ∧ b = '_') ∧ (a ≠ '_' → b ≠ '_' → isBoundary a b = false)

theorem goodKeyChar_spec (c : Char) (h : GoodKeyChar c = true) :
    isSepChar c = false ∧ goIsLower c = false ∧ goToUpper c = c := by
  simp [GoodKeyChar] at h
  exact ⟨h.1.1, h.1.2, h.2⟩

theorem isSepChar_false_spec (c : Char) (h : isSepChar c = false) :
    c ≠ '_' ∧ goIsSpace c = false := by
  simp [isSepChar] at h
  exact ⟨h.1, h.2.2.2⟩

theorem isSepChar_underscore : isSepChar '_' = true := by decide

theorem goIsSpace_underscore : goIsSpace '_' = false := by decide

theorem goodKeyChar_ne_underscore (c : Char) (h : GoodKeyChar c = true) : c ≠ '_' := by
  intro hc
  subst hc
  have h1 := (goodKeyChar_spec _ h).1
  rw [isSepChar_underscore] at h1
  exact Bool.noConfusion h1

theorem asciiUpperNotLower :
    ∀ n : Fin 128, goIsLower (goToUpper (Char.ofNat n.val)) = false := by decide

theorem asciiUpperDigit : ∀ n : Fin 128,
    goIsDigit (goToUpper (Char.ofNat n.val)) = goIsDigit (Char.ofNat n.val) := by decide

theorem asciiGoodUpper : ∀ n : Fin 128, isSepChar (Char.ofNat n.val) = false →
    GoodKeyChar (goToUpper (Char.ofNat n.val)) = true := by decide

theorem goToUpper_not_lower_ascii (c : Char) (h : c.toNat ≤ 127) :
    goIsLower (goToUpper c) = false := by
  have h2 := asciiUpperNotLower ⟨c.toNat, by omega⟩
  simpa [Char.ofNat_toNat] using h2

theorem goToUpper_digit_ascii (c : Char) (h : c.toNat ≤ 127) :
    goIsDigit (goToUpper c) = goIsDigit c := by
  have h2 := asciiUpperDigit ⟨c.toNat, by omega⟩
  simpa [Char.ofNat_toNat] using h2

theorem goodKeyChar_toUpper_ascii (c : Char) (h : c.toNat ≤ 127)
    (hs : isSepChar c = false) : GoodKeyChar (goToUpper c) = true := by
  have h2 := asciiGoodUpper ⟨c.toNat, by omega⟩
  simp [Char.ofNat_toNat] at h2
  exact h2 hs

theorem isBoundary_toUpper_ascii (r c : Char) (hr : r.toNat ≤ 127) (hc : c.toNat ≤ 127)
    (h : isBoundary r c = false) : isBoundary (goToUpper r) (goToUpper c) = false := by
  have h1 := goToUpper_not_lower_ascii r hr
  have h2 := goToUpper_digit_ascii r hr
  have h3 := goToUpper_digit_ascii c hc
  have hb := h
  simp only [isBoundary, Bool.or_eq_false_iff] at hb
  simp only [isBoundary, h1, h2, h3, Bool.false_and, Bool.false_or, Bool.or_eq_false_iff]
  exact ⟨hb.1.2, hb.2⟩

theorem dropWhile_eq_self_of (p : Char → Bool) (l : List Char)
    (h : ∀ c ∈ l, p c = false) : l.dropWhile p = l := by
  cases l with
  | nil => rfl
  | cons a rest =>
      rw [List.dropWhile_cons, h a (by simp)]
      simp

theorem dropWhile_head_not (p : Char → Bool) (l : List Char) :
    ∀ c, (l.dropWhile p).head? = some c → p c = false := by
  induction l with
  | nil => intro c h; cases h
  | cons a rest ih =>
      intro c h
      rw [List.dropWhile_cons] at h
      by_cases hpa : p a = true
      · rw [if_pos hpa] at h
        exact ih c h
      · rw [if_neg hpa] at h
        have ha : a = c := by
          have h2 : some a = some c := h
          exact Option.some.inj h2
        rw [← ha]
        exact Bool.eq_false_iff.mpr hpa

theorem trimSpace_mk_id (l : List Char) (h : ∀ c ∈ l, goIsSpace c = false) :
    trimSpace (String.mk l) = String.mk l := by
  have h1 : l.dropWhile goIsSpace = l := dropWhile_eq_self_of _ _ h
  have h2 : l.reverse.dropWhile goIsSpace = l.reverse :=
    dropWhile_eq_self_of _ _ (fun c hc => h c (List.mem_reverse.mp hc))
  show String.mk (((l.dropWhile goIsSpace).reverse.dropWhile goIsSpace).reverse) = String.mk l
  rw [h1, h2, List.reverse_reverse]

theorem mem_trimSpace (s : String) (c : Char) (h : c ∈ (trimSpace s).data) :
    c ∈ s.data := by
  have h1 : c ∈ ((s.data.dropWhile goIsSpace).reverse.dropWhile goIsSpace).reverse := h
  have h2 := (List.dropWhile_suffix goIsSpace).sublist.subset (List.mem_reverse.mp h1)
  have h3 := (List.dropWhile_suffix goIsSpace).sublist.subset (List.mem_reverse.mp h2)
  exact h3

theorem collapseAux_id : ∀ (l : List Char) (last : Option Char),
    ((last = none ∨ last = some '_') → l.head? ≠ some '_') →
    List.Chain' (fun a b => ¬(a = '_' ∧ b = '_')) l →
    collapseAux last l = l := by
  intro l
  induction l with
  | nil => intro last _ _; rfl
  | cons c rest ih =>
      intro last hhead hchain
      by_cases hc : c = '_'
      · have hnl : ¬(last = none ∨ last = some '_') := by
          intro hl
          exact hhead hl (by simp [hc])
        rw [collapseAux, if_neg (fun hh => hnl hh.2)]
        congr 1
        refine ih (some c) ?_ hchain.tail
        intro _ hh
        cases rest with
        | nil => cases hh
        | cons d rest2 =>
            have hr := (List.chain'_cons.mp hchain).1
            have hd : d = '_' := by
              have h2 : some d = some '_' := hh
              exact Option.some.inj h2
            exact hr ⟨hc, hd⟩
      · rw [collapseAux, if_neg (fun hh => hc hh.1)]
        congr 1
        refine ih (some c) ?_ hchain.tail
        intro hl
        rcases hl with h1 | h1
        · cases h1
        · exact absurd (Option.some.inj h1) hc

theorem toEnvKey_scan_fixed :
    ∀ (l acc : List Char) (p : Option Char),
      (∀ c ∈ l, c = '_' ∨ GoodKeyChar c = true) →
      List.Chain' KeyAdj l →
      ((p = none ∧ (acc = [] ∨ acc.head? = some '_')) ∨
        (∃ g, p = some g ∧ acc.head? = some g ∧ g ≠ '_')) →
      (∀ c, l.head? = some c →
        (p = none → c ≠ '_') ∧ (∀ g, p = some g → c ≠ '_' → isBoundary g c = false)) →
      (l.foldl toEnvKeyStep (acc, p)).1 = l.reverse ++ acc := by
  intro l
  induction l with
  | nil => intro acc p _ _ _ _; simp
  | cons c rest ih =>
      intro acc p hmem hchain hstate hlink
      have hlc := hlink c rfl
      have hlinkrest : ∀ d, rest.head? = some d → KeyAdj c d := by
        intro d hd
        have := (List.chain'_cons'.mp hchain).1
        exact this d hd
      by_cases hc : c = '_'
      · subst hc
        rcases hstate with ⟨hp, hacc⟩ | ⟨g, hp, hacc, hg⟩
        · exact absurd rfl (hlc.1 hp)
        · subst hp
          obtain ⟨acc₀, rfl⟩ : ∃ acc₀, acc = g :: acc₀ := by
            cases acc with
            | nil => cases hacc
            | cons a acc₀ =>
                have ha : a = g := Option.some.inj hacc
                exact ⟨acc₀, by rw [ha]⟩
          have hstep : toEnvKeyStep (g :: acc₀, some g) '_' = ('_' :: g :: acc₀, none) := by
            simp [toEnvKeyStep, isSepChar_underscore, appendUnderscoreRev, hg]
          rw [List.foldl_cons, hstep]
          have hres := ih ('_' :: g :: acc₀) none
            (fun d hd => hmem d (by simp [hd]))
            hchain.tail
            (Or.inl ⟨rfl, Or.inr rfl⟩)
            (by
              intro d hd
              refine ⟨fun _ hd' => ?_, (fun g2 hg2 => by cases hg2)⟩
              exact (hlinkrest d hd).1 ⟨rfl, hd'⟩)
          rw [hres]
          simp
      · have hgood : GoodKeyChar c = true := by
          rcases hmem c (by simp) with h1 | h1
          · exact absurd h1 hc
          · exact h1
        have hspec := goodKeyChar_spec c hgood
        have hlink2 : ∀ d, rest.head? = some d →
            (some c = none → d ≠ '_') ∧
            (∀ g2, some c = some g2 → d ≠ '_' → isBoundary g2 d = false) := by
          intro d hd
          refine ⟨(fun h => by cases h), fun g2 hg2 hd' => ?_⟩
          have : g2 = c := (Option.some.inj hg2).symm
          subst this
          exact (hlinkrest d hd).2 hc hd'
        rcases hstate with ⟨hp, hacc⟩ | ⟨g, hp, hacc, hg⟩
        · subst hp
          have hstep : toEnvKeyStep (acc, none) c = (c :: acc, some c) := by
            simp [toEnvKeyStep, hspec.1, hspec.2.2]
          rw [List.foldl_cons, hstep]
          have hres := ih (c :: acc) (some c)
            (fun d hd => hmem d (by simp [hd]))
            hchain.tail
            (Or.inr ⟨c, rfl, rfl, hc⟩)
            hlink2
          rw [hres]
          simp
        · subst hp
          obtain ⟨acc₀, rfl⟩ : ∃ acc₀, acc = g :: acc₀ := by
            cases acc with
            | nil => cases hacc
            | cons a acc₀ =>
                have ha : a = g := Option.some.inj hacc
                exact ⟨acc₀, by rw [ha]⟩
          have hnb : isBoundary g c = false := hlc.2 g rfl hc
          have hstep : toEnvKeyStep (g :: acc₀, some g) c = (c :: g :: acc₀, some c) := by
            simp [toEnvKeyStep, hspec.1, hspec.2.2, hnb]
          rw [List.foldl_cons, hstep]
          have hres := ih (c :: g :: acc₀) (some c)
            (fun d hd => hmem d (by simp [hd]))
            hchain.tail
            (Or.inr ⟨c, rfl, rfl, hc⟩)
            hlink2
          rw [hres]
          simp

/-- A normalized key is a fixed point of toEnvKey: its characters are
underscores or normalized characters, with no duplicate underscores,
no boundary between adjacent kept characters, and no leading or
trailing underscore. -/
theorem toEnvKey_fixed_of_norm (l : List Char)
    (h1 : ∀ c ∈ l, c = '_' ∨ GoodKeyChar c = true)
    (h2 : List.Chain' KeyAdj l)
    (h3 : l.head? ≠ some '_')
    (h4 : l.getLast? ≠ some '_') :
    toEnvKey (String.mk l) = String.mk l := by
  cases l with
  | nil => decide
  | cons a l₀ =>
      have hnospace : ∀ c ∈ (a :: l₀), goIsSpace c = false := by
        intro c hcmem
        rcases h1 c hcmem with h | h
        · rw [h]; exact goIsSpace_underscore
        · exact (isSepChar_false_spec c (goodKeyChar_spec c h).1).2
      have htrim := trimSpace_mk_id (a :: l₀) hnospace
      have hne : String.mk (a :: l₀) ≠ "" := by
        intro hh
        exact List.noConfusion (congrArg String.data hh)
      have hscan := toEnvKey_scan_fixed (a :: l₀) [] none h1 h2
        (Or.inl ⟨rfl, Or.inl rfl⟩)
        (by
          intro c hch
          have hca : a = c := Option.some.inj hch
          refine ⟨fun _ hc' => ?_, (fun g hg => by cases hg)⟩
          exact h3 (by rw [← hca] at hc'; simp [hc']))
      have hchain2 : List.Chain' (fun x y => ¬(x = '_' ∧ y = '_')) (a :: l₀) :=
        List.Chain'.imp (fun x y h => h.1) h2
      have hcollapse : collapseUnderscores (a :: l₀) = a :: l₀ := by
        refine collapseAux_id (a :: l₀) none ?_ hchain2
        intro _
        exact h3
      have htail : trimTrailingUnderscores (a :: l₀) = a :: l₀ := by
        show ((a :: l₀).reverse.dropWhile (fun c => c = '_')).reverse = a :: l₀
        cases hr : (a :: l₀).reverse with
        | nil => exact absurd (congrArg List.length hr) (by simp)
        | cons b rest =>
            have hhr := List.head?_reverse (a :: l₀)
            rw [hr] at hhr
            have hb : b ≠ '_' := by
              intro hb'
              exact h4 (by rw [← hhr, hb']; simp)
            rw [List.dropWhile_cons, if_neg (by simp [hb])]
            rw [← hr, List.reverse_reverse]
      show toEnvKey (String.mk (a :: l₀)) = String.mk (a :: l₀)
      simp only [toEnvKey]
      rw [htrim, if_neg hne]
      rw [show (String.mk (a :: l₀)).data = a :: l₀ from rfl, hscan]
      rw [List.append_nil, List.reverse_reverse, hcollapse, htail]

/-- Invariant of the toEnvKey fold on ASCII input: the output (kept in
reverse order) consists of underscores and normalized characters, with
no duplicate underscores and no boundary between adjacent kept
characters; the key does not start with an underscore (the reversed
output does not end with one); and the previous-rune state matches the
output head. -/
def ScanInv (st : List Char × Option Char) : Prop :=
  (∀ c ∈ st.1, c = '_' ∨ GoodKeyChar c = true) ∧
  List.Chain' (fun a b => KeyAdj b a) st.1 ∧
  st.1.getLast? ≠ some '_' ∧
  (match st.2 with
   | none => st.1 = [] ∨ st.1.head? = some '_'
   | some r => r.toNat ≤ 127 ∧ isSepChar r = false ∧ st.1.head? = some (goToUpper r))

theorem toEnvKeyStep_inv (out : List Char) (p : Option Char)
    (hst : ScanInv (out, p)) (c : Char) (hc : c.toNat ≤ 127) :
    ScanInv (toEnvKeyStep (out, p) c) := by
  obtain ⟨hmem, hchain, hlast, hprev⟩ := hst
  by_cases hsep : isSepChar c = true
  · have hstep : toEnvKeyStep (out, p) c = (appendUnderscoreRev out, none) := by
      simp [toEnvKeyStep, hsep]
    rw [hstep]
    cases out with
    | nil =>
        rw [show appendUnderscoreRev [] = [] from rfl]
        exact ⟨by simp, by simp, by simp, Or.inl rfl⟩
    | cons a out₀ =>
        by_cases ha : a = '_'
        · subst ha
          have happ : appendUnderscoreRev ('_' :: out₀) = '_' :: out₀ := by
            simp [appendUnderscoreRev]
          rw [happ]
          exact ⟨hmem, hchain, hlast, Or.inr rfl⟩
        · have happ : appendUnderscoreRev (a :: out₀) = '_' :: a :: out₀ := by
            simp [appendUnderscoreRev, ha]
          rw [happ]
          refine ⟨?_, ?_, ?_, Or.inr rfl⟩
          · intro d hd
            rcases List.mem_cons.mp hd with h | h
            · exact Or.inl h
            · exact hmem d h
          · rw [List.chain'_cons']
            refine ⟨?_, hchain⟩
            intro y hy
            have hya : a = y := Option.some.inj hy
            subst hya
            exact ⟨fun hh => ha hh.1, fun _ h2 => absurd rfl h2⟩
          · rw [List.getLast?_cons_cons]
            exact hlast
  · have hsep' : isSepChar c = false := Bool.eq_false_iff.mpr hsep
    have hgoodc := goodKeyChar_toUpper_ascii c hc hsep'
    have hncu : goToUpper c ≠ '_' := goodKeyChar_ne_underscore _ hgoodc
    cases p with
    | none =>
        have hstep : toEnvKeyStep (out, none) c = (goToUpper c :: out, some c) := by
          simp [toEnvKeyStep, hsep']
        rw [hstep]
        rcases hprev with hout | hout
        · subst hout
          refine ⟨?_, ?_, ?_, ⟨hc, hsep', rfl⟩⟩
          · intro d hd
            rcases List.mem_cons.mp hd with h | h
            · exact Or.inr (by rw [h]; exact hgoodc)
            · exact absurd h (List.not_mem_nil d)
          · simp
          · simp [hncu]
        · obtain ⟨out₀, rfl⟩ : ∃ out₀, out = '_' :: out₀ := by
            cases out with
            | nil => cases hout
            | cons x out₀ => exact ⟨out₀, by rw [Option.some.inj hout]⟩
          refine ⟨?_, ?_, ?_, ⟨hc, hsep', rfl⟩⟩
          · intro d hd
            rcases List.mem_cons.mp hd with h | h
            · exact Or.inr (by rw [h]; exact hgoodc)
            · exact hmem d h
          · rw [List.chain'_cons']
            refine ⟨?_, hchain⟩
            intro y hy
            have hy' : '_' = y := Option.some.inj hy
            subst hy'
            exact ⟨fun hh => hncu hh.2, fun h1 _ => absurd rfl h1⟩
          · rw [List.getLast?_cons_cons]
            exact hlast
    | some r =>
        obtain ⟨hr127, hrsep, hhead⟩ := hprev
        obtain ⟨out₀, rfl⟩ : ∃ out₀, out = goToUpper r :: out₀ := by
          cases out with
          | nil => cases hhead
          | cons x out₀ => exact ⟨out₀, by rw [Option.some.inj hhead]⟩
        have hgoodr := goodKeyChar_toUpper_ascii r hr127 hrsep
        have hnru : goToUpper r ≠ '_' := goodKeyChar_ne_underscore _ hgoodr
        by_cases hb : isBoundary r c = true
        · have hstep : toEnvKeyStep (goToUpper r :: out₀, some r) c =
              (goToUpper c :: '_' :: goToUpper r :: out₀, some c) := by
            simp [toEnvKeyStep, hsep', hb, appendUnderscoreRev, hnru]
          rw [hstep]
          refine ⟨?_, ?_, ?_, ⟨hc, hsep', rfl⟩⟩
          · intro d hd
            rcases List.mem_cons.mp hd with h | h
            · exact Or.inr (by rw [h]; exact hgoodc)
            · rcases List.mem_cons.mp h with h2 | h2
              · exact Or.inl h2
              · exact hmem d h2
          · rw [List.chain'_cons']
            refine ⟨?_, ?_⟩
            · intro y hy
              have hy' : '_' = y := Option.some.inj hy
              subst hy'
              exact ⟨fun hh => hncu hh.2, fun h1 _ => absurd rfl h1⟩
            · rw [List.chain'_cons']
              refine ⟨?_, hchain⟩
              intro y hy
              have hy' : goToUpper r = y := Option.some.inj hy
              subst hy'
              exact ⟨fun hh => hnru hh.1, fun _ h2 => absurd rfl h2⟩
          · rw [List.getLast?_cons_cons, List.getLast?_cons_cons]
            exact hlast
        · have hb' : isBoundary r c = false := Bool.eq_false_iff.mpr hb
          have hstep : toEnvKeyStep (goToUpper r :: out₀, some r) c =
              (goToUpper c :: goToUpper r :: out₀, some c) := by
            simp [toEnvKeyStep, hsep', hb']
          rw [hstep]
          refine ⟨?_, ?_, ?_, ⟨hc, hsep', rfl⟩⟩
          · intro d hd
            rcases List.mem_cons.mp hd with h | h
            · exact Or.inr (by rw [h]; exact hgoodc)
            · exact hmem d h
          · rw [List.chain'_cons']
            refine ⟨?_, hchain⟩
            intro y hy
            have hy' : goToUpper r = y := Option.some.inj hy
            subst hy'
            refine ⟨fun hh => hnru hh.1, fun _ _ => ?_⟩
            exact isBoundary_toUpper_ascii r c hr127 hc hb'
          · rw [List.getLast?_cons_cons]
            exact hlast

theorem scanInv_foldl (l : List Char) (h : ∀ c ∈ l, c.toNat ≤ 127) :
    ∀ st, ScanInv st → ScanInv (l.foldl toEnvKeyStep st) := by
  induction l with
  | nil => intro st hst; exact hst
  | cons c rest ih =>
      intro st hst
      rw [List.foldl_cons]
      exact ih (fun d hd => h d (by simp [hd])) (toEnvKeyStep st c)
        (toEnvKeyStep_inv st.1 st.2 hst c (h c (by simp)))

/-- The transliterated key of an ASCII name is in normal form. -/
theorem toEnvKey_norm (s : String) (h : ∀ c ∈ s.data, c.toNat ≤ 127) :
    (∀ c ∈ (toEnvKey s).data, c = '_' ∨ GoodKeyChar c = true) ∧
    List.Chain' KeyAdj (toEnvKey s).data ∧
    (toEnvKey s).data.head? ≠ some '_' ∧
    (toEnvKey s).data.getLast? ≠ some '_' := by
  by_cases ht : trimSpace s = ""
  · have htk : toEnvKey s = "" := by simp [toEnvKey, ht]
    rw [htk]
    exact ⟨by simp, by simp, by simp, by simp⟩
  · have hst := scanInv_foldl (trimSpace s).data
      (fun c hc => h c (mem_trimSpace s c hc)) ([], none)
      ⟨by simp, by simp, by simp, Or.inl rfl⟩
    obtain ⟨hmem, hchain, hlast, _⟩ := hst
    have hmem1 : ∀ c ∈ ((trimSpace s).data.foldl toEnvKeyStep ([], none)).1.reverse,
        c = '_' ∨ GoodKeyChar c = true :=
      fun c hc => hmem c (List.mem_reverse.mp hc)
    have hchain1 : List.Chain' KeyAdj
        ((trimSpace s).data.foldl toEnvKeyStep ([], none)).1.reverse :=
      List.chain'_reverse.mpr hchain
    have hhead1 : ((trimSpace s).data.foldl toEnvKeyStep ([], none)).1.reverse.head? ≠
        some '_' := by
      rw [List.head?_reverse]
      exact hlast
    have hcol : collapseUnderscores
        ((trimSpace s).data.foldl toEnvKeyStep ([], none)).1.reverse =
        ((trimSpace s).data.foldl toEnvKeyStep ([], none)).1.reverse := by
      refine collapseAux_id _ none ?_ (List.Chain'.imp (fun x y hxy => hxy.1) hchain1)
      intro _
      exact hhead1
    have h5 : toEnvKey s = String.mk (trimTrailingUnderscores
        ((trimSpace s).data.foldl toEnvKeyStep ([], none)).1.reverse) := by
      simp only [toEnvKey]
      rw [if_neg ht, hcol]
    have hpre : trimTrailingUnderscores
        ((trimSpace s).data.foldl toEnvKeyStep ([], none)).1.reverse <+:
        ((trimSpace s).data.foldl toEnvKeyStep ([], none)).1.reverse := by
      have h6 := List.dropWhile_suffix (fun c => c = '_')
        (l := ((trimSpace s).data.foldl toEnvKeyStep ([], none)).1.reverse.reverse)
      have h7 : (((trimSpace s).data.foldl toEnvKeyStep
          ([], none)).1.reverse.reverse.dropWhile (fun c => c = '_')).reverse.reverse <:+
          ((trimSpace s).data.foldl toEnvKeyStep ([], none)).1.reverse.reverse := by
        rwa [List.reverse_reverse]
      exact List.reverse_suffix.mp h7
    rw [h5]
    refine ⟨?_, ?_, ?_, ?_⟩
    · intro c hc
      exact hmem1 c (hpre.sublist.subset hc)
    · exact List.Chain'.prefix hchain1 hpre
    · intro hh
      obtain ⟨tl, htl⟩ := hpre
      cases htt : trimTrailingUnderscores
          ((trimSpace s).data.foldl toEnvKeyStep ([], none)).1.reverse with
      | nil => rw [htt] at hh; cases hh
      | cons a tt2 =>
          rw [htt] at hh
          have ha : a = '_' := Option.some.inj hh
          rw [htt] at htl
          apply hhead1
          rw [← htl, ha]
          rfl
    · intro hh
      rw [show trimTrailingUnderscores
          ((trimSpace s).data.foldl toEnvKeyStep ([], none)).1.reverse =
          (((trimSpace s).data.foldl toEnvKeyStep
            ([], none)).1.reverse.reverse.dropWhile (fun c => c = '_')).reverse
          from rfl, List.getLast?_reverse] at hh
      have h8 := dropWhile_head_not (fun c => decide (c = '_')) _ '_' hh
      simp at h8

/-- C7 counterexample: toEnvKey is not idempotent on every string.  On
the Latin-1 lowercase letter sharp s (U+00DF), which unicode.ToUpper
leaves unchanged, the first pass of "ßa" produces "ßA" without a
boundary (ß is lowercase, 'a' is not uppercase), but the second pass
sees the lower-to-upper transition ß→A and inserts an underscore, so
toEnvKey (toEnvKey "ßa") = "ß_A" ≠ "ßA" = toEnvKey "ßa". -/
theorem toEnvKey_not_idempotent_counterexample :
    toEnvKey "ßa" = "ßA" ∧ toEnvKey "ßA" = "ß_A" ∧
    toEnvKey (toEnvKey "ßa") ≠ toEnvKey "ßa" := by decide

/-- C7 (amended): toEnvKey is a pure function of its argument and is
idempotent on every ASCII string (idempotence can fail on strings with
non-ASCII letters such as the sharp s), and it satisfies the four
documented examples: "HTTP2Port" ↦ "HTTP_2_PORT", "DatabaseURL" ↦
"DATABASE_URL", "snake_case" ↦ "SNAKE_CASE", "  spaced name  " ↦
"SPACED_NAME". -/
theorem toEnvKey_idempotent_ascii :
    (∀ s : String, (∀ c ∈ s.data, c.toNat ≤ 127) →
      toEnvKey (toEnvKey s) = toEnvKey s) ∧
    toEnvKey "HTTP2Port" = "HTTP_2_PORT" ∧
    toEnvKey "DatabaseURL" = "DATABASE_URL" ∧
    toEnvKey "snake_case" = "SNAKE_CASE" ∧
    toEnvKey "  spaced name  " = "SPACED_NAME" := by
  refine ⟨?_, by decide, by decide, by decide, by decide⟩
  intro s hs
  obtain ⟨h1, h2, h3, h4⟩ := toEnvKey_norm s hs
  have h5 := toEnvKey_fixed_of_norm (toEnvKey s).data h1 h2 h3 h4
  rwa [show String.mk (toEnvKey s).data = toEnvKey s from rfl] at h5

theorem toEnvKey_idempotent_ascii_witness :
    toEnvKey (toEnvKey "DatabaseURL") = toEnvKey "DatabaseURL" :=
  toEnvKey_idempotent_ascii.1 "DatabaseURL" (by decide)
